import Mathlib

/-!
postmanctl: the document normalizer and differ (`pkg/util`) and the replace command.

A shallow embedding of `pkg/util/reformat.go`, `pkg/util/compare.go` and the compare
mode of `internal/runtime/cmd/replace.go`.

The Go code works on the dynamic values that `encoding/json` decodes into an
`interface{}`: `nil`, `bool`, `float64`, `string`, `map[string]interface{}` and
`[]interface{}`.  They are embedded as the inductive type `Value`.

* A Go map is embedded as an association list; `range` visits the entries in list
  order (Go leaves the order unspecified, the list order is one such order) and a
  well-formed map has pairwise distinct keys (`Value.WF`).
* A JSON number is a `float64`.  The code only compares numbers with `==` and encodes
  them, it never computes with them, so a number is carried as an integer or as the
  negative zero, which `encoding/json` decodes from `-0`: `==` equates it with zero and
  `json.Marshal` writes it `-0`.  NaN and the infinities are not decoded from JSON.
* `fmt.Sprintf("%s.%s", path, k)` is `path ++ "." ++ k`.
* Of `internal/runtime/cmd/replace.go` the decisions of `replaceResource` and `doCompare`
  are embedded: what the environment answers (files, remote service, operator) is an
  explicit input (`World`), what the run does is an explicit output (`Compared`,
  `Replaced`).
-/

/-- A decoded JSON number, the content of a Go `float64`: an integer, or the negative
zero. -/
inductive float64 where
  | int (n : Int)
  | negZero
  deriving DecidableEq

/-- Go `a == b` on `float64`: zero and the negative zero are equal. -/
def float64.eq : float64 → float64 → Bool
  | .int a, .int b => a == b
  | .int a, .negZero => a == 0
  | .negZero, .int b => b == 0
  | .negZero, .negZero => true

/-- A decoded JSON document, the dynamic content of an `interface{}`. -/
inductive Value where
  | null
  | bool (b : Bool)
  | num (n : float64)
  | str (s : String)
  | obj (m : List (String × Value))
  | arr (a : List Value)

namespace Value

mutual
/-- Syntactic equality test on documents. -/
def beq : Value → Value → Bool
  | .null, .null => true
  | .bool a, .bool b => a == b
  | .num a, .num b => a == b
  | .str a, .str b => a == b
  | .obj a, .obj b => beqMembers a b
  | .arr a, .arr b => beqElems a b
  | _, _ => false
/-- Syntactic equality test on object entries. -/
def beqMembers : List (String × Value) → List (String × Value) → Bool
  | [], [] => true
  | (k, v) :: r, (k2, v2) :: r2 => k == k2 && beq v v2 && beqMembers r r2
  | _, _ => false
/-- Syntactic equality test on array elements. -/
def beqElems : List Value → List Value → Bool
  | [], [] => true
  | v :: r, v2 :: r2 => beq v v2 && beqElems r r2
  | _, _ => false
end

mutual
theorem beq_iff : ∀ a b : Value, beq a b = true ↔ a = b
  | .null, b => by cases b <;> simp [beq]
  | .bool x, b => by cases b <;> simp [beq]
  | .num x, b => by cases b <;> simp [beq]
  | .str x, b => by cases b <;> simp [beq]
  | .obj x, b => by
      cases b <;> simp [beq]
      exact beqMembers_iff x _
  | .arr x, b => by
      cases b <;> simp [beq]
      exact beqElems_iff x _
theorem beqMembers_iff : ∀ a b : List (String × Value), beqMembers a b = true ↔ a = b
  | [], b => by cases b <;> simp [beqMembers]
  | (k, v) :: r, b => by
      cases b with
      | nil => simp [beqMembers]
      | cons p r2 =>
        obtain ⟨k2, v2⟩ := p
        simp [beqMembers, beq_iff v v2, beqMembers_iff r r2, and_assoc]
theorem beqElems_iff : ∀ a b : List Value, beqElems a b = true ↔ a = b
  | [], b => by cases b <;> simp [beqElems]
  | v :: r, b => by
      cases b with
      | nil => simp [beqElems]
      | cons v2 r2 => simp [beqElems, beq_iff v v2, beqElems_iff r r2]
end

instance : DecidableEq Value := fun a b => decidable_of_iff _ (beq_iff a b)

/-- The node variant of a document (null, scalar, object, array). -/
inductive Variant where
  | null | scalar | object | array
  deriving DecidableEq

/-- Node variant of a value. -/
def variant : Value → Variant
  | .null => .null
  | .bool _ => .scalar
  | .num _ => .scalar
  | .str _ => .scalar
  | .obj _ => .object
  | .arr _ => .array

/-- Test `v == nil` on an `interface{}`. -/
def isNil : Value → Bool
  | .null => true
  | _ => false

mutual
/-- Every value strictly inside a document: the values of its objects and the
elements of its arrays, at any depth. -/
def inner : Value → List Value
  | .obj m => innerMembers m
  | .arr a => innerElems a
  | _ => []
/-- Values inside the entries of an object. -/
def innerMembers : List (String × Value) → List Value
  | [] => []
  | (_, v) :: r => v :: (inner v ++ innerMembers r)
/-- Values inside the elements of an array. -/
def innerElems : List Value → List Value
  | [] => []
  | v :: r => v :: (inner v ++ innerElems r)
end

mutual
/-- Every object key of a document, at any depth. -/
def allKeys : Value → List String
  | .obj m => allKeysMembers m
  | .arr a => allKeysElems a
  | _ => []
/-- Keys of the entries of an object and of everything below them. -/
def allKeysMembers : List (String × Value) → List String
  | [] => []
  | (k, v) :: r => k :: (allKeys v ++ allKeysMembers r)
/-- Keys found below the elements of an array. -/
def allKeysElems : List Value → List String
  | [] => []
  | v :: r => allKeys v ++ allKeysElems r
end

end Value

/-- Go `_, ok := m[k]`: whether the map has the key. -/
def hasKey {α : Type} (m : List (String × α)) (k : String) : Bool :=
  (m.lookup k).isSome

/-- Go `m[k]` on a `map[string]interface{}`: the value, `nil` when the key is absent. -/
def index (m : List (String × Value)) (k : String) : Value :=
  (m.lookup k).getD Value.null

/-! ## reformat.go -/

mutual
/-- Embedding of `ReformatInterface`. -/
def ReformatInterface (nested : Value) (removeNilValue : Bool)
    (keymap : List (String × Int)) : Value :=
  match nested with
  | .null => .null
  | .obj s => .obj (ReformatMap s removeNilValue keymap)
  | .arr s => .arr (ReformatArrays s removeNilValue keymap)
  | .bool b => .bool b
  | .num n => .num n
  | .str s => .str s
/-- Embedding of `ReformatMap`. -/
def ReformatMap (nested : List (String × Value)) (removeNilValue : Bool)
    (keymap : List (String × Int)) : List (String × Value) :=
  match nested with
  | [] => []
  | (k, v) :: rest =>
    if hasKey keymap k then ReformatMap rest removeNilValue keymap
    else if v.isNil && removeNilValue then ReformatMap rest removeNilValue keymap
    else (k, ReformatInterface v removeNilValue keymap) :: ReformatMap rest removeNilValue keymap
/-- Embedding of `ReformatArrays`. -/
def ReformatArrays (nested : List Value) (removeNilValue : Bool)
    (keymap : List (String × Int)) : List Value :=
  match nested with
  | [] => []
  | v :: rest =>
    if v.isNil then ReformatArrays rest removeNilValue keymap
    else ReformatInterface v removeNilValue keymap :: ReformatArrays rest removeNilValue keymap
end

/-! ## The canonical key of an array element: `json.Marshal`

`encoding/json` writes `null`, `true`, `false`, a number in decimal, a string between
double quotes with its escapes, an array between brackets and an object between braces
with its entries sorted by key. -/

/-- The double quote character. -/
def dquote : Char := Char.ofNat 34

/-- The backslash character. -/
def bslash : Char := Char.ofNat 92

/-- Decimal text of an integer. -/
def formatInt : Int → List Char
  | .ofNat m => Nat.toDigits 10 m
  | .negSucc m => '-' :: Nat.toDigits 10 (m + 1)

/-- Text of a `float64` as `encoding/json` writes it; the negative zero is `-0`. -/
def formatFloat : float64 → List Char
  | .int n => formatInt n
  | .negZero => ['-', '0']

/-- Escape of one character of a string, as `encoding/json` writes it (HTML escaping on). -/
def escapeChar (c : Char) : List Char :=
  if c = dquote then [bslash, dquote]
  else if c = bslash then [bslash, bslash]
  else if c = Char.ofNat 10 then [bslash, 'n']
  else if c = Char.ofNat 13 then [bslash, 'r']
  else if c = Char.ofNat 9 then [bslash, 't']
  else if c.toNat < 32 ∨ c = '<' ∨ c = '>' ∨ c = '&' then
    [bslash, 'u', '0', '0', Nat.digitChar (c.toNat / 16), Nat.digitChar (c.toNat % 16)]
  else if c = Char.ofNat 8232 then [bslash, 'u', '2', '0', '2', '8']
  else if c = Char.ofNat 8233 then [bslash, 'u', '2', '0', '2', '9']
  else [c]

/-- Escaped content of a string. -/
def escape : List Char → List Char
  | [] => []
  | c :: r => escapeChar c ++ escape r

/-- A JSON string literal. -/
def quote (s : String) : List Char :=
  dquote :: (escape s.toList ++ [dquote])

/-- Comma-separated concatenation. -/
def joinComma : List (List Char) → List Char
  | [] => []
  | [x] => x
  | x :: y :: r => x ++ ',' :: joinComma (y :: r)

/-- Go `a <= b` on strings: lexicographic order of the characters. -/
def strLE : List Char → List Char → Bool
  | [], _ => true
  | _ :: _, [] => false
  | a :: r, b :: s =>
    if a.toNat < b.toNat then true
    else if b.toNat < a.toNat then false
    else strLE r s

/-- Order of object entries by key, the order in which `encoding/json` writes them. -/
def keyLE {α : Type} (a b : String × α) : Prop := strLE a.1.toList b.1.toList = true

instance {α : Type} : DecidableRel (@keyLE α) :=
  fun a b => inferInstanceAs (Decidable (strLE a.1.toList b.1.toList = true))

/-- One `"key":value` entry. -/
def encodeEntry (e : String × List Char) : List Char :=
  quote e.1 ++ ':' :: e.2

mutual
/-- The JSON text of a document. -/
def encode : Value → List Char
  | .null => ['n', 'u', 'l', 'l']
  | .bool true => ['t', 'r', 'u', 'e']
  | .bool false => ['f', 'a', 'l', 's', 'e']
  | .num n => formatFloat n
  | .str s => quote s
  | .obj m => '{' :: (joinComma ((List.insertionSort keyLE (encodeMembers m)).map encodeEntry) ++ ['}'])
  | .arr a => '[' :: (joinComma (encodeElems a) ++ [']'])
/-- The entries of an object, each value encoded. -/
def encodeMembers : List (String × Value) → List (String × List Char)
  | [] => []
  | (k, v) :: r => (k, encode v) :: encodeMembers r
/-- The encoded elements of an array. -/
def encodeElems : List Value → List (List Char)
  | [] => []
  | v :: r => encode v :: encodeElems r
end

/-- Embedding of `json.Marshal` followed by `string(tmp)`. -/
def Marshal (v : Value) : String := String.mk (encode v)

/-! ## compare.go -/

/-- Embedding of the struct `diff`. -/
structure diff where
  Path : String
  Old : Value
  New : Value
  deriving DecidableEq

/-- The dynamic types `reflect.TypeOf` can report on a decoded document. -/
inductive GoType where
  | bool | float64 | string | map | slice
  deriving DecidableEq

/-- Embedding of `reflect.TypeOf`; `none` is the nil type of a nil interface. -/
def TypeOf : Value → Option GoType
  | .null => none
  | .bool _ => some .bool
  | .num _ => some .float64
  | .str _ => some .string
  | .obj _ => some .map
  | .arr _ => some .slice

mutual
/-- Embedding of `reflect.DeepEqual` on decoded documents. -/
def DeepEqual : Value → Value → Bool
  | .null, .null => true
  | .bool a, .bool b => a == b
  | .num a, .num b => float64.eq a b
  | .str a, .str b => a == b
  | .obj a, .obj b => a.length == b.length && DeepEqualMembers a b
  | .arr a, .arr b => DeepEqualElems a b
  | _, _ => false
/-- Every entry of the first map has a deeply equal entry under the same key in the second. -/
def DeepEqualMembers : List (String × Value) → List (String × Value) → Bool
  | [], _ => true
  | (k, v) :: r, b =>
    (match b.lookup k with
      | some v2 => DeepEqual v v2
      | none => false) && DeepEqualMembers r b
/-- Two slices have the same length and deeply equal elements at each position. -/
def DeepEqualElems : List Value → List Value → Bool
  | [], [] => true
  | v :: r, v2 :: r2 => DeepEqual v v2 && DeepEqualElems r r2
  | _, _ => false
end

/-- Go `m[k]` on a `map[string]int`: the count, 0 when the key is absent. -/
def count (m : List (String × Nat)) (k : String) : Nat :=
  (m.lookup k).getD 0

/-- Go `m[k] = v`: overwrite the entry of the key, or add it. -/
def setKey {α : Type} (m : List (String × α)) (k : String) (v : α) : List (String × α) :=
  match m with
  | [] => [(k, v)]
  | (k2, v2) :: r => if k == k2 then (k, v) :: r else (k2, v2) :: setKey r k v

/-- First loop of `CompareArrayInterface`: the frequency map of the keys of `old`. -/
def countKeys (old : List Value) : List (String × Nat) :=
  old.foldl (fun m v => setKey m (Marshal v) (count m (Marshal v) + 1)) []

/-- Second loop of `CompareArrayInterface`: consume `new` against the frequency map;
the state is the map and `diffnew`. -/
def matchNew (m : List (String × Nat)) (new : List Value) : List (String × Nat) × List Value :=
  new.foldl (fun s v =>
    if count s.1 (Marshal v) > 0 && hasKey s.1 (Marshal v)
    then (setKey s.1 (Marshal v) (count s.1 (Marshal v) - 1), s.2)
    else (s.1, s.2 ++ [v])) (m, [])

/-- Third loop of `CompareArrayInterface`: walk `old` again and build `diffold`. -/
def restOld (m : List (String × Nat)) (old : List Value) : List Value :=
  old.foldl (fun diffold v =>
    if count m (Marshal v) > 0 then diffold ++ List.replicate (count m (Marshal v)) v
    else diffold) []

/-- Embedding of `CompareArrayInterface`. -/
def CompareArrayInterface (path : String) (old new : List Value) : List diff :=
  let s := matchNew (countKeys old) new
  let diffold := restOld s.1 old
  let diffnew := s.2
  if diffnew.length + diffold.length > 0 then [⟨path, .arr diffold, .arr diffnew⟩] else []

/-- First loop of `CompareMap`: the keys of `old` that `new` lacks. -/
def oldOnly (path : String) (old new : List (String × Value)) : List diff :=
  (old.filter (fun e => !hasKey new e.1)).map
    (fun e => ⟨path ++ "." ++ e.1, index old e.1, Value.null⟩)

mutual
/-- Embedding of `CompareInterface`; `none` is the panic of a failed type assertion.
The recursion is on `new`, so the call `CompareMap(path, s, new)` stands unfolded here:
the entries of its first loop followed by those of its second loop. -/
def CompareInterface (path : String) (old new : Value) : Option (List diff) :=
  if TypeOf old ≠ TypeOf new then some [⟨path, old, new⟩]
  else
    match old with
    | .obj s =>
      match new with
      | .obj n => (CompareMapNew path s n).map (fun l => oldOnly path s n ++ l)
      | _ => none
    | .arr s =>
      match new with
      | .arr n => some (CompareArrayInterface path s n)
      | _ => none
    | _ => if !DeepEqual old new then some [⟨path, old, new⟩] else some []
/-- Second loop of `CompareMap`, over the entries of `new`. -/
def CompareMapNew (path : String) (old : List (String × Value)) :
    List (String × Value) → Option (List diff)
  | [] => some []
  | (k, v) :: rest =>
    if !hasKey old k then
      (CompareMapNew path old rest).map
        (fun l => ⟨path ++ "." ++ k, Value.null, index old k⟩ :: l)
    else
      (CompareInterface (path ++ "." ++ k) (index old k) v).bind
        (fun d => (CompareMapNew path old rest).map (fun l => d ++ l))
end

/-- Embedding of `CompareMap`: the first loop, then the second. -/
def CompareMap (path : String) (old new : List (String × Value)) : Option (List diff) :=
  (CompareMapNew path old new).map (fun l => oldOnly path old new ++ l)

/-! ## Well-formed documents and the spec's notion of sameness -/

namespace Value

mutual
/-- A well-formed document: the keys of every object, at any depth, are pairwise distinct
(what the Go type `map[string]interface{}` guarantees). -/
def WF : Value → Bool
  | .obj m => decide (m.map Prod.fst).Nodup && WFMembers m
  | .arr a => WFElems a
  | _ => true
/-- Every value of the entries is well-formed. -/
def WFMembers : List (String × Value) → Bool
  | [] => true
  | (_, v) :: r => WF v && WFMembers r
/-- Every element is well-formed. -/
def WFElems : List Value → Bool
  | [] => true
  | v :: r => WF v && WFElems r
end

mutual
/-- No negative zero occurs in the document, at any depth. -/
def noNegZero : Value → Bool
  | .num x => decide (x ≠ float64.negZero)
  | .obj m => noNegZeroMembers m
  | .arr a => noNegZeroElems a
  | _ => true
/-- No negative zero occurs in the values of the entries. -/
def noNegZeroMembers : List (String × Value) → Bool
  | [] => true
  | (_, v) :: r => noNegZero v && noNegZeroMembers r
/-- No negative zero occurs in the elements. -/
def noNegZeroElems : List Value → Bool
  | [] => true
  | v :: r => noNegZero v && noNegZeroElems r
end

end Value

/-- The spec's "the same", the matching of array elements being the parameter `E`: both
null, or equal scalars (numbers by Go `==`), or objects with the same key set whose values
under each key are the same, or arrays one of which is a permutation of the other, the
elements matched by `E`. -/
inductive SameUpTo (E : Value → Value → Prop) : Value → Value → Prop
  | null : SameUpTo E .null .null
  | bool (b : Bool) : SameUpTo E (.bool b) (.bool b)
  | num (x y : float64) : float64.eq x y = true → SameUpTo E (.num x) (.num y)
  | str (s : String) : SameUpTo E (.str s) (.str s)
  | obj (m1 m2 : List (String × Value)) :
      (∀ k, hasKey m1 k = hasKey m2 k) →
      (∀ k, hasKey m1 k = true → SameUpTo E (index m1 k) (index m2 k)) →
      SameUpTo E (.obj m1) (.obj m2)
  | arr (a b c : List Value) :
      a.Perm c → List.Forall₂ E c b →
      SameUpTo E (.arr a) (.arr b)

/-- The spec's "the same": array elements are matched by structural equality
(`reflect.DeepEqual`). -/
def Same (a b : Value) : Prop := SameUpTo (fun x y => DeepEqual x y = true) a b

/-- The same, array elements being matched by their canonical encoding, the key that
`CompareArrayInterface` counts them under. -/
def SameKeyed (a b : Value) : Prop := SameUpTo (fun x y => Marshal x = Marshal y) a b

/-! ## Readers of the JSON text

Left inverses of the writers above; they are used to show that `json.Marshal` loses
nothing. -/

/-- Value of a decimal digit. -/
def digitVal (c : Char) : Nat := c.toNat - 48

/-- Value of a hexadecimal digit written in lower case. -/
def hexVal (c : Char) : Nat := if c.toNat ≤ 57 then c.toNat - 48 else c.toNat - 87

/-- Value of a sequence of decimal digits. -/
def numVal (l : List Char) : Nat := l.foldl (fun acc c => acc * 10 + digitVal c) 0

/-- A character of the text of a number. -/
def isNumChar (c : Char) : Bool := c == '-' || (48 ≤ c.toNat && c.toNat ≤ 57)

/-- Reads back one escaped character from the content of a string literal. -/
def unescapeChar : List Char → Option (Char × List Char)
  | [] => none
  | x :: rest =>
    if x = bslash then
      match rest with
      | [] => none
      | y :: rest2 =>
        if y = dquote then some (dquote, rest2)
        else if y = bslash then some (bslash, rest2)
        else if y = 'n' then some (Char.ofNat 10, rest2)
        else if y = 'r' then some (Char.ofNat 13, rest2)
        else if y = 't' then some (Char.ofNat 9, rest2)
        else if y = 'u' then
          match rest2 with
          | h1 :: h2 :: h3 :: h4 :: rest3 =>
            some (Char.ofNat (hexVal h1 * 4096 + hexVal h2 * 256 + hexVal h3 * 16 + hexVal h4),
              rest3)
          | _ => none
        else none
    else some (x, rest)

/-- The text that follows an encoded value inside a document: nothing, or a comma, or a
closing bracket or brace. -/
def Terminated (r : List Char) : Prop :=
  ∀ c ∈ r.head?, c = ',' ∨ c = ']' ∨ c = '}'

/-- The dynamic type of the value whose text starts with the given character. -/
def headType (c : Char) : Option GoType :=
  if c = 'n' then none
  else if c = 't' ∨ c = 'f' then some .bool
  else if isNumChar c then some .float64
  else if c = dquote then some .string
  else if c = '{' then some .map
  else some .slice

/-- The text of the document can be read back: whenever it is a prefix, up to a terminated
rest, of the text of another document, the two documents are deeply equal and the rests
are the same. -/
def ReadsBack (a : Value) : Prop :=
  ∀ (b : Value) (r1 r2 : List Char), a.WF = true → b.WF = true →
    Terminated r1 → Terminated r2 → encode a ++ r1 = encode b ++ r2 →
    DeepEqual a b = true ∧ r1 = r2

/-- Deeply equal documents without a negative zero are written the same: every such
document deeply equal to this one has the same JSON text. -/
def WritesSame (a : Value) : Prop :=
  ∀ b : Value, a.WF = true → b.WF = true → a.noNegZero = true → b.noNegZero = true →
    DeepEqual a b = true → encode a = encode b

/-! ## The lists of `CompareArrayInterface` -/

/-- The list `diffnew` that `CompareArrayInterface` builds: the new-only list. -/
def diffnew (old new : List Value) : List Value :=
  (matchNew (countKeys old) new).2

/-- The list `diffold` that `CompareArrayInterface` builds: the old-only list. -/
def diffold (old new : List Value) : List Value :=
  restOld (matchNew (countKeys old) new).1 old

/-- The spec's new-only list: walking `new` in order, an element is matched while fewer
elements equal to it have been seen in `new` than occur in `old`, and every later
occurrence is kept, in order.  Equal is structural equality (`reflect.DeepEqual`). -/
def newMinusOld (old : List Value) : List Value → List Value → List Value
  | _, [] => []
  | seen, v :: rest =>
    if (seen.filter (fun w => DeepEqual w v)).length < (old.filter (fun w => DeepEqual w v)).length
    then newMinusOld old (seen ++ [v]) rest
    else v :: newMinusOld old (seen ++ [v]) rest

/-- The same walk, an element being equal to another when they have the same canonical
encoding. -/
def newMinusOldKeyed (old : List Value) : List Value → List Value → List Value
  | _, [] => []
  | seen, v :: rest =>
    if (seen.filter (fun w => Marshal w == Marshal v)).length
        < (old.filter (fun w => Marshal w == Marshal v)).length
    then newMinusOldKeyed old (seen ++ [v]) rest
    else v :: newMinusOldKeyed old (seen ++ [v]) rest

/-! ## replace.go -/

/-- Modelled from the spec: the declaration of `resources.ResourceType` is not among the
sources; these are the eight constants that `replace.go` registers and switches on. -/
inductive ResourceType where
  | CollectionType
  | EnvironmentType
  | MonitorType
  | MockType
  | WorkspaceType
  | APIType
  | APIVersionType
  | SchemaType
  deriving DecidableEq

/-- Embedding of `strings.ToLower`, on the letters `A` to `Z`; no other character lowers to
a letter of `"y"`, so the comparison with `"y"` is decided by these. -/
def ToLower (s : String) : String :=
  String.mk (s.toList.map Char.toLower)

/-- What the environment answers during one run of `doCompare`. -/
structure World where
  /-- `os.Open(file)` reports an error. -/
  openFails : Bool
  /-- The remote resource decoded into `tmp`; `none` when `json.Marshal` or
  `json.Unmarshal` reports an error.  The error of the fetch itself is never read: the
  code goes on with whatever `data` holds. -/
  remote : Option (List (String × Value))
  /-- The pieces `strings.Split(ignoreKey.value, ",")` returns. -/
  ignoreKeys : List String
  /-- The local file decoded into `v`; `none` when reading or decoding reports an error. -/
  candidate : Option (List (String × Value))
  /-- The value of `confirm` after `fmt.Scanln(&confirm)`. -/
  confirm : String

/-- What one run of `doCompare` does. -/
structure Compared where
  /-- The returned boolean: the replace may proceed. -/
  proceed : Bool
  /-- The diff report written to the console or the diff file, when one was computed. -/
  report : Option (List diff)
  deriving DecidableEq

/-- The key map `doCompare` builds: `keymap[v] = 1` for every piece. -/
def buildKeymap (pieces : List String) : List (String × Int) :=
  pieces.foldl (fun keymap v => setKey keymap v 1) []

/-- Embedding of `doCompare`, from the decoding of the remote resource on. -/
def compareFetched (w : World) : Compared :=
  match w.remote with
  | none => ⟨false, none⟩
  | some tmp =>
    match w.candidate with
    | none => ⟨false, none⟩
    | some v =>
      match CompareMap "" (ReformatMap tmp true (buildKeymap w.ignoreKeys)) v with
      | none => ⟨false, none⟩
      | some dff => ⟨ToLower w.confirm == "y", some dff⟩

/-- Embedding of `doCompare`. -/
def doCompare (w : World) (t : ResourceType) : Compared :=
  if w.openFails then ⟨false, none⟩
  else
    match t with
    | .CollectionType => compareFetched w
    | .EnvironmentType => compareFetched w
    | .MockType => compareFetched w
    | .MonitorType => compareFetched w
    | .WorkspaceType => compareFetched w
    | _ => ⟨true, none⟩

/-- Embedding of `prepareMap` (get.go): `listing` is the map from names to identifiers
built from what the service lists for the type (empty when the service or the decoding
reports an error); `none` is the panic of `args[0]` on an empty `args`. -/
def prepareMap (resourceType : ResourceType) (args : List String)
    (listing : List (String × String)) : Option (List (String × String)) :=
  match resourceType with
  | .CollectionType => some listing
  | .EnvironmentType => some listing
  | .MockType => some listing
  | .MonitorType => some listing
  | .APIType => some listing
  | .APIVersionType =>
    match args with
    | [] => none
    | _ :: _ => some listing
  | .WorkspaceType => some listing
  | .SchemaType => some []

/-- What one run of `replaceResource` does. -/
structure Replaced where
  /-- A `service.Replace…FromReader` call was made. -/
  replaced : Bool
  /-- The run of `doCompare`, when there was one. -/
  compared : Option Compared
  /-- The value of `resourceID` when the run ends: the identifier handed to `doCompare`
  and to the replace call. -/
  resourceID : String
  deriving DecidableEq

/-- Embedding of `replaceResource`: `readerSet` says that `inputReader` is already set
(standard input is piped), `inputOpenFails` that `os.Open(inputFile)` reports an error;
`none` is the panic of `prepareMap(t)`, which is called with no further argument. -/
def replaceResource (mode inputFile : String) (readerSet inputOpenFails : Bool)
    (listing : List (String × String)) (w : World) (t : ResourceType)
    (resourceID : String) : Option Replaced :=
  if !readerSet && inputOpenFails then some ⟨false, none, resourceID⟩
  else
    match prepareMap t [] listing with
    | none => none
    | some uuid =>
      let resourceID := (uuid.lookup resourceID).getD resourceID
      if mode = "force" then some ⟨true, none, resourceID⟩
      else if mode = "compare" then
        if inputFile.length = 0 then some ⟨false, none, resourceID⟩
        else
          let c := doCompare w t
          if !c.proceed then some ⟨false, some c, resourceID⟩
          else some ⟨true, some c, resourceID⟩
      else some ⟨false, none, resourceID⟩

/-! ## Documents that differ only under suppressed keys, and the shape of a path -/

mutual
/-- The spec's "differ only in the presence or the values of keys belonging to `K`, at any
depth": the two documents are the same once every entry under a key of `K` is set aside.
The entries that are not set aside come in the same order, the order `range` visits them
in the embedding. -/
inductive AgreeOff (K : List (String × Int)) : Value → Value → Prop
  | null : AgreeOff K .null .null
  | bool (b : Bool) : AgreeOff K (.bool b) (.bool b)
  | num (n : float64) : AgreeOff K (.num n) (.num n)
  | str (s : String) : AgreeOff K (.str s) (.str s)
  | obj {m1 m2 : List (String × Value)} : AgreeMembers K m1 m2 → AgreeOff K (.obj m1) (.obj m2)
  | arr {a1 a2 : List Value} : AgreeElems K a1 a2 → AgreeOff K (.arr a1) (.arr a2)
/-- Two objects that differ only under suppressed keys. -/
inductive AgreeMembers (K : List (String × Int)) :
    List (String × Value) → List (String × Value) → Prop
  | nil : AgreeMembers K [] []
  | skipLeft {k : String} {v : Value} {m1 m2 : List (String × Value)} :
      hasKey K k = true → AgreeMembers K m1 m2 → AgreeMembers K ((k, v) :: m1) m2
  | skipRight {k : String} {v : Value} {m1 m2 : List (String × Value)} :
      hasKey K k = true → AgreeMembers K m1 m2 → AgreeMembers K m1 ((k, v) :: m2)
  | keep {k : String} {v1 v2 : Value} {m1 m2 : List (String × Value)} :
      AgreeOff K v1 v2 → AgreeMembers K m1 m2 →
      AgreeMembers K ((k, v1) :: m1) ((k, v2) :: m2)
/-- Two arrays whose elements differ only under suppressed keys. -/
inductive AgreeElems (K : List (String × Int)) : List Value → List Value → Prop
  | nil : AgreeElems K [] []
  | cons {v1 v2 : Value} {a1 a2 : List Value} :
      AgreeOff K v1 v2 → AgreeElems K a1 a2 → AgreeElems K (v1 :: a1) (v2 :: a2)
end

/-- The text that a sequence of object keys adds to a path: each key after a dot. -/
def keyPath : List String → String
  | [] => ""
  | k :: ks => "." ++ k ++ keyPath ks

/-! ## Go equality of numbers -/

theorem float64.eq_self (x : float64) : float64.eq x x = true := by
  cases x <;> simp [float64.eq]

theorem float64.eq_of_ne_negZero (x y : float64) (hx : x ≠ float64.negZero)
    (hy : y ≠ float64.negZero) (h : float64.eq x y = true) : x = y := by
  cases x with
  | negZero => exact absurd rfl hx
  | int a =>
    cases y with
    | negZero => exact absurd rfl hy
    | int b =>
      simp only [float64.eq, beq_iff_eq] at h
      rw [h]

/-! ## Properties of the normalizer -/

theorem ReformatInterface_isNil (v : Value) (r : Bool) (K : List (String × Int)) :
    (ReformatInterface v r K).isNil = v.isNil := by
  cases v <;> simp [ReformatInterface, Value.isNil]

theorem reformatInterface_ne_null (v : Value) (r : Bool) (K : List (String × Int))
    (hn : ¬ v.isNil = true) : Value.null ≠ ReformatInterface v r K := by
  cases v <;> simp [ReformatInterface, Value.isNil] at hn ⊢

mutual
theorem reformatInterface_idem (r : Bool) (K : List (String × Int)) :
    ∀ x : Value, ReformatInterface (ReformatInterface x r K) r K = ReformatInterface x r K
  | .null => by simp [ReformatInterface]
  | .bool _ => by simp [ReformatInterface]
  | .num _ => by simp [ReformatInterface]
  | .str _ => by simp [ReformatInterface]
  | .obj m => by simp [ReformatInterface, reformatMap_idem r K m]
  | .arr a => by simp [ReformatInterface, reformatArrays_idem r K a]
theorem reformatMap_idem (r : Bool) (K : List (String × Int)) :
    ∀ m : List (String × Value), ReformatMap (ReformatMap m r K) r K = ReformatMap m r K
  | [] => by simp [ReformatMap]
  | (k, v) :: rest => by
      have ih := reformatMap_idem r K rest
      have ihv := reformatInterface_idem r K v
      by_cases hk : hasKey K k = true
      · simp [ReformatMap, hk, ih]
      · by_cases hn : (v.isNil && r) = true
        · simp [ReformatMap, hk, hn, ih]
        · simp only [ReformatMap, hk, hn, ReformatInterface_isNil, if_false, Bool.false_eq_true,
            ih, ihv]
theorem reformatArrays_idem (r : Bool) (K : List (String × Int)) :
    ∀ a : List Value, ReformatArrays (ReformatArrays a r K) r K = ReformatArrays a r K
  | [] => by simp [ReformatArrays]
  | v :: rest => by
      have ih := reformatArrays_idem r K rest
      have ihv := reformatInterface_idem r K v
      by_cases hn : v.isNil = true
      · simp [ReformatArrays, hn, ih]
      · simp only [ReformatArrays, hn, ReformatInterface_isNil, if_false, Bool.false_eq_true,
          ih, ihv]
end

mutual
theorem allKeys_reformatInterface (r : Bool) (K : List (String × Int)) :
    ∀ x : Value, ∀ k ∈ (ReformatInterface x r K).allKeys, hasKey K k = false
  | .null => by simp [ReformatInterface, Value.allKeys]
  | .bool _ => by simp [ReformatInterface, Value.allKeys]
  | .num _ => by simp [ReformatInterface, Value.allKeys]
  | .str _ => by simp [ReformatInterface, Value.allKeys]
  | .obj m => by
      simpa [ReformatInterface, Value.allKeys] using allKeys_reformatMap r K m
  | .arr a => by
      simpa [ReformatInterface, Value.allKeys] using allKeys_reformatArrays r K a
theorem allKeys_reformatMap (r : Bool) (K : List (String × Int)) :
    ∀ m : List (String × Value), ∀ k ∈ Value.allKeysMembers (ReformatMap m r K), hasKey K k = false
  | [] => by simp [ReformatMap, Value.allKeysMembers]
  | (k, v) :: rest => by
      have ih := allKeys_reformatMap r K rest
      have ihv := allKeys_reformatInterface r K v
      by_cases hk : hasKey K k = true
      · simpa [ReformatMap, hk] using ih
      · by_cases hn : (v.isNil && r) = true
        · simpa [ReformatMap, hk, hn] using ih
        · intro k2 hk2
          simp only [ReformatMap, hk, hn, if_false, Bool.false_eq_true, Value.allKeysMembers,
            List.mem_cons, List.mem_append] at hk2
          rcases hk2 with h | h | h
          · subst h; simpa using hk
          · exact ihv _ h
          · exact ih _ h
theorem allKeys_reformatArrays (r : Bool) (K : List (String × Int)) :
    ∀ a : List Value, ∀ k ∈ Value.allKeysElems (ReformatArrays a r K), hasKey K k = false
  | [] => by simp [ReformatArrays, Value.allKeysElems]
  | v :: rest => by
      have ih := allKeys_reformatArrays r K rest
      have ihv := allKeys_reformatInterface r K v
      by_cases hn : v.isNil = true
      · simpa [ReformatArrays, hn] using ih
      · intro k2 hk2
        simp only [ReformatArrays, hn, if_false, Bool.false_eq_true, Value.allKeysElems,
          List.mem_append] at hk2
        rcases hk2 with h | h
        · exact ihv _ h
        · exact ih _ h
end

mutual
theorem inner_reformatInterface (K : List (String × Int)) :
    ∀ x : Value, Value.null ∉ (ReformatInterface x true K).inner
  | .null => by simp [ReformatInterface, Value.inner]
  | .bool _ => by simp [ReformatInterface, Value.inner]
  | .num _ => by simp [ReformatInterface, Value.inner]
  | .str _ => by simp [ReformatInterface, Value.inner]
  | .obj m => by
      simpa [ReformatInterface, Value.inner] using inner_reformatMap K m
  | .arr a => by
      simpa [ReformatInterface, Value.inner] using inner_reformatArrays K a
theorem inner_reformatMap (K : List (String × Int)) :
    ∀ m : List (String × Value), Value.null ∉ Value.innerMembers (ReformatMap m true K)
  | [] => by simp [ReformatMap, Value.innerMembers]
  | (k, v) :: rest => by
      have ih := inner_reformatMap K rest
      have ihv := inner_reformatInterface K v
      by_cases hk : hasKey K k = true
      · simpa [ReformatMap, hk] using ih
      · by_cases hn : v.isNil = true
        · simpa [ReformatMap, hk, hn] using ih
        · have hne : Value.null ≠ ReformatInterface v true K :=
            reformatInterface_ne_null v true K hn
          simp only [ReformatMap, hk, hn, if_false, Bool.false_eq_true, Value.innerMembers,
            List.mem_cons, List.mem_append, Bool.and_true]
          tauto
theorem inner_reformatArrays (K : List (String × Int)) :
    ∀ a : List Value, Value.null ∉ Value.innerElems (ReformatArrays a true K)
  | [] => by simp [ReformatArrays, Value.innerElems]
  | v :: rest => by
      have ih := inner_reformatArrays K rest
      have ihv := inner_reformatInterface K v
      by_cases hn : v.isNil = true
      · simpa [ReformatArrays, hn] using ih
      · have hne : Value.null ≠ ReformatInterface v true K :=
          reformatInterface_ne_null v true K hn
        simp only [ReformatArrays, hn, if_false, Bool.false_eq_true, Value.innerElems,
          List.mem_cons, List.mem_append]
        tauto
end

/-- C8 (normalization idempotence): normalizing an already normalized document with
the same flag and the same suppressed keys changes nothing. -/
theorem C8_reformat_idempotent (x : Value) (r : Bool) (K : List (String × Int)) :
    ReformatInterface (ReformatInterface x r K) r K = ReformatInterface x r K :=
  reformatInterface_idem r K x

/-- C9 (suppression completeness): no object key found at any depth of the normalized
document belongs to the suppressed key set. -/
theorem C9_suppression_complete (x : Value) (r : Bool) (K : List (String × Int)) :
    ∀ k ∈ (ReformatInterface x r K).allKeys, hasKey K k = false :=
  allKeys_reformatInterface r K x

theorem C9_suppression_complete_witness :
    "name" ∈ (ReformatInterface
        (.obj [("name", .str "A"), ("secret", .str "s"), ("l", .arr [.obj [("secret", .null)]])])
        false [("secret", 1)]).allKeys
    ∧ hasKey [("secret", (1 : Int))] "name" = false :=
  ⟨by decide,
   C9_suppression_complete
     (.obj [("name", .str "A"), ("secret", .str "s"), ("l", .arr [.obj [("secret", .null)]])])
     false [("secret", 1)] "name" (by decide)⟩

/-- C10 (null elision with removeNil = true): the object `{"a": null, "b": [null, 1, null]}`
normalizes to `{"b": [1]}`, and for every object and key set the normalized object holds
no null, neither as an object value nor as an array element, at any depth. -/
theorem C10_null_elision :
    ReformatMap [("a", .null), ("b", .arr [.null, .num (.int 1), .null])] true []
        = [("b", .arr [.num (.int 1)])]
    ∧ ∀ (x : List (String × Value)) (K : List (String × Int)),
        Value.null ∉ (Value.obj (ReformatMap x true K)).inner :=
  ⟨by decide, fun x K => by simpa [Value.inner] using inner_reformatMap K x⟩

/-! ## Properties of the frequency map -/

theorem lookup_setKey {α : Type} (m : List (String × α)) (k k2 : String) (v : α) :
    (setKey m k v).lookup k2 = if k2 = k then some v else m.lookup k2 := by
  induction m with
  | nil =>
    by_cases h : k2 = k
    · subst h; simp [setKey, List.lookup]
    · have hb : (k2 == k) = false := by simpa using h
      simp [setKey, List.lookup, h, hb]
  | cons e r ih =>
    obtain ⟨k3, v3⟩ := e
    by_cases h3 : k = k3
    · subst h3
      by_cases h : k2 = k
      · subst h; simp [setKey, List.lookup]
      · have hb : (k2 == k) = false := by simpa using h
        simp [setKey, List.lookup, h, hb]
    · have hb3 : (k == k3) = false := by simpa using h3
      by_cases h : k2 = k
      · subst h
        simp [setKey, List.lookup, hb3, ih]
      · by_cases h4 : k2 = k3
        · subst h4
          simp [setKey, List.lookup, hb3, h]
        · have hb4 : (k2 == k3) = false := by simpa using h4
          simp [setKey, List.lookup, hb3, h, hb4, ih]

theorem count_setKey (m : List (String × Nat)) (k k2 : String) (v : Nat) :
    count (setKey m k v) k2 = if k2 = k then v else count m k2 := by
  unfold count
  rw [lookup_setKey]
  by_cases h : k2 = k <;> simp [h]

theorem count_cons_key (k k2 : String) (l : List String) :
    (k :: l).count k2 = l.count k2 + if k2 = k then 1 else 0 := by
  rw [List.count_cons]
  by_cases h : k2 = k
  · subst h; simp
  · have hb : (k == k2) = false := by
      simp only [beq_eq_false_iff_ne, ne_eq]
      exact fun h2 => h h2.symm
    simp [h, hb]

theorem hasKey_of_count_pos (m : List (String × Nat)) (k : String) (h : 0 < count m k) :
    hasKey m k = true := by
  unfold count at h
  unfold hasKey
  cases hl : m.lookup k with
  | none => simp [hl] at h
  | some v => simp

theorem count_foldl_countKeys (old : List Value) (m : List (String × Nat)) (k : String) :
    count (old.foldl (fun m v => setKey m (Marshal v) (count m (Marshal v) + 1)) m) k
      = count m k + (old.map Marshal).count k := by
  induction old generalizing m with
  | nil => simp
  | cons v r ih =>
    simp only [List.foldl_cons, List.map_cons]
    rw [ih, count_setKey, count_cons_key]
    by_cases h : k = Marshal v
    · subst h; simp; omega
    · simp [h]

theorem count_countKeys (old : List Value) (k : String) :
    count (countKeys old) k = (old.map Marshal).count k := by
  unfold countKeys
  rw [count_foldl_countKeys]
  simp [count]

/-- One step of the second loop of `CompareArrayInterface`. -/
theorem matchNew_step_count (s : List (String × Nat) × List Value) (new : List Value) (k : String) :
    count (new.foldl (fun s v =>
        if count s.1 (Marshal v) > 0 && hasKey s.1 (Marshal v)
        then (setKey s.1 (Marshal v) (count s.1 (Marshal v) - 1), s.2)
        else (s.1, s.2 ++ [v])) s).1 k
      = count s.1 k - (new.map Marshal).count k := by
  induction new generalizing s with
  | nil => simp
  | cons v r ih =>
    simp only [List.foldl_cons, List.map_cons]
    rw [ih, count_cons_key]
    by_cases hpos : 0 < count s.1 (Marshal v)
    · have hk := hasKey_of_count_pos _ _ hpos
      simp only [gt_iff_lt, hpos, decide_True, hk, Bool.and_self, if_true]
      rw [count_setKey]
      by_cases h : k = Marshal v
      · subst h; simp; omega
      · simp [h]
    · simp only [gt_iff_lt, hpos, decide_False, Bool.false_and, if_false, Bool.false_eq_true]
      by_cases h : k = Marshal v
      · subst h; simp; omega
      · simp [h]

theorem matchNew_step_diffnew (s : List (String × Nat) × List Value) (new : List Value) :
    ∃ extra, (new.foldl (fun s v =>
        if count s.1 (Marshal v) > 0 && hasKey s.1 (Marshal v)
        then (setKey s.1 (Marshal v) (count s.1 (Marshal v) - 1), s.2)
        else (s.1, s.2 ++ [v])) s).2 = s.2 ++ extra
      ∧ (extra = [] ↔ ∀ k, (new.map Marshal).count k ≤ count s.1 k) := by
  induction new generalizing s with
  | nil => exact ⟨[], by simp⟩
  | cons v r ih =>
    simp only [List.foldl_cons, List.map_cons]
    by_cases hpos : 0 < count s.1 (Marshal v)
    · have hk := hasKey_of_count_pos _ _ hpos
      simp only [gt_iff_lt, hpos, decide_True, hk, Bool.and_self, if_true]
      obtain ⟨extra, h1, h2⟩ := ih (setKey s.1 (Marshal v) (count s.1 (Marshal v) - 1), s.2)
      refine ⟨extra, h1, ?_⟩
      rw [h2]
      constructor
      · intro h k
        have := h k
        rw [count_setKey] at this
        rw [count_cons_key]
        by_cases hkv : k = Marshal v
        · subst hkv; simp at this ⊢; omega
        · simpa [hkv] using this
      · intro h k
        have := h k
        rw [count_cons_key] at this
        rw [count_setKey]
        by_cases hkv : k = Marshal v
        · subst hkv; simp at this ⊢; omega
        · simpa [hkv] using this
    · simp only [gt_iff_lt, hpos, decide_False, Bool.false_and, if_false, Bool.false_eq_true]
      obtain ⟨extra, h1, _⟩ := ih (s.1, s.2 ++ [v])
      refine ⟨v :: extra, by simpa using h1, ?_⟩
      constructor
      · intro h; simp at h
      · intro h
        exfalso
        have := h (Marshal v)
        rw [count_cons_key] at this
        simp at this
        omega

theorem restOld_step (m : List (String × Nat)) (old d : List Value) :
    ∃ extra, old.foldl (fun diffold v =>
        if count m (Marshal v) > 0 then diffold ++ List.replicate (count m (Marshal v)) v
        else diffold) d = d ++ extra
      ∧ (extra = [] ↔ ∀ v ∈ old, count m (Marshal v) = 0) := by
  induction old generalizing d with
  | nil => exact ⟨[], by simp⟩
  | cons v r ih =>
    simp only [List.foldl_cons]
    by_cases hpos : 0 < count m (Marshal v)
    · simp only [gt_iff_lt, hpos, if_true]
      obtain ⟨extra, h1, _⟩ := ih (d ++ List.replicate (count m (Marshal v)) v)
      refine ⟨List.replicate (count m (Marshal v)) v ++ extra, by simpa using h1, ?_⟩
      constructor
      · intro h
        exfalso
        simp at h
        omega
      · intro h
        exfalso
        have := h v (by simp)
        omega
    · simp only [gt_iff_lt, hpos, if_false]
      obtain ⟨extra, h1, h2⟩ := ih d
      refine ⟨extra, h1, ?_⟩
      rw [h2]
      constructor
      · intro h w hw
        rcases List.mem_cons.1 hw with rfl | hw
        · omega
        · exact h w hw
      · intro h w hw
        exact h w (List.mem_cons_of_mem _ hw)

/-- The array comparison reports nothing exactly when the two arrays hold the same keys
with the same multiplicities. -/
theorem compareArray_nil_iff (p : String) (a b : List Value) :
    CompareArrayInterface p a b = [] ↔ (a.map Marshal).Perm (b.map Marshal) := by
  obtain ⟨en, hn1, hn2⟩ := matchNew_step_diffnew (countKeys a, []) b
  obtain ⟨eo, ho1, ho2⟩ := restOld_step (matchNew (countKeys a) b).1 a []
  have hc : ∀ k, count (matchNew (countKeys a) b).1 k
      = (a.map Marshal).count k - (b.map Marshal).count k := by
    intro k
    unfold matchNew
    rw [matchNew_step_count, count_countKeys]
  have hnil : CompareArrayInterface p a b = [] ↔ en = [] ∧ eo = [] := by
    unfold CompareArrayInterface restOld
    simp only [ho1]
    unfold matchNew
    simp only [hn1]
    simp only [List.nil_append]
    by_cases h : 0 < en.length + eo.length
    · simp only [gt_iff_lt, h, if_true]
      constructor
      · intro h'; simp at h'
      · rintro ⟨rfl, rfl⟩; simp at h
    · simp only [gt_iff_lt, h, if_false, true_iff]
      have : en.length = 0 ∧ eo.length = 0 := by omega
      exact ⟨List.length_eq_zero.1 this.1, List.length_eq_zero.1 this.2⟩
  rw [hnil, hn2, ho2, List.perm_iff_count]
  simp only [count_countKeys, hc]
  constructor
  · rintro ⟨h1, h2⟩ k
    by_cases hk : k ∈ a.map Marshal
    · obtain ⟨v, hv, rfl⟩ := List.mem_map.1 hk
      have := h1 (Marshal v)
      have := h2 v hv
      omega
    · have := h1 k
      have h0 : (a.map Marshal).count k = 0 := List.count_eq_zero_of_not_mem hk
      omega
  · intro h
    exact ⟨fun k => by rw [h k], fun v _ => by rw [h (Marshal v)]; omega⟩

/-! ## Properties of map lookups -/

theorem hasKey_iff_mem {α : Type} (m : List (String × α)) (k : String) :
    hasKey m k = true ↔ k ∈ m.map Prod.fst := by
  unfold hasKey
  induction m with
  | nil => simp [List.lookup]
  | cons e r ih =>
    obtain ⟨k2, v2⟩ := e
    by_cases h : k = k2
    · subst h; simp [List.lookup]
    · have hb : (k == k2) = false := by simpa using h
      simp [List.lookup, hb, ih, h]

theorem hasKey_of_mem {α : Type} (m : List (String × α)) (e : String × α) (h : e ∈ m) :
    hasKey m e.1 = true :=
  (hasKey_iff_mem m e.1).2 (List.mem_map_of_mem _ h)

theorem lookup_of_mem_nodup {α : Type} (m : List (String × α)) (hnd : (m.map Prod.fst).Nodup)
    (e : String × α) (h : e ∈ m) : m.lookup e.1 = some e.2 := by
  induction m with
  | nil => simp at h
  | cons e2 r ih =>
    obtain ⟨k2, v2⟩ := e2
    simp only [List.map_cons, List.nodup_cons] at hnd
    rcases List.mem_cons.1 h with rfl | h
    · simp [List.lookup]
    · have hne : e.1 ≠ k2 := by
        intro heq
        exact hnd.1 (heq ▸ List.mem_map_of_mem _ h)
      have hb : (e.1 == k2) = false := by simpa using hne
      simp [List.lookup, hb, ih hnd.2 h]

theorem index_of_mem_nodup (m : List (String × Value)) (hnd : (m.map Prod.fst).Nodup)
    (e : String × Value) (h : e ∈ m) : index m e.1 = e.2 := by
  unfold index
  rw [lookup_of_mem_nodup m hnd e h]
  rfl

theorem index_mem_of_hasKey (m : List (String × Value)) (k : String) (h : hasKey m k = true) :
    (k, index m k) ∈ m := by
  unfold hasKey at h
  unfold index
  induction m with
  | nil => simp [List.lookup] at h
  | cons e r ih =>
    obtain ⟨k2, v2⟩ := e
    by_cases hk : k = k2
    · subst hk; simp [List.lookup]
    · have hb : (k == k2) = false := by simpa using hk
      simp only [List.lookup, hb] at h ⊢
      exact List.mem_cons_of_mem _ (ih h)

theorem oldOnly_mem (path : String) (old new : List (String × Value)) (k : String)
    (ho : hasKey old k = true) (hn : hasKey new k = false) :
    (⟨path ++ "." ++ k, index old k, Value.null⟩ : diff) ∈ oldOnly path old new := by
  unfold oldOnly
  refine List.mem_map.2 ⟨(k, index old k), ?_, rfl⟩
  exact List.mem_filter.2 ⟨index_mem_of_hasKey old k ho, by simp [hn]⟩

theorem oldOnly_self (path : String) (m : List (String × Value)) : oldOnly path m m = [] := by
  unfold oldOnly
  rw [List.map_eq_nil_iff, List.filter_eq_nil_iff]
  intro e he
  simp [hasKey_of_mem m e he]

/-! ## Totality of the differ -/

mutual
theorem compareInterface_total :
    ∀ (new : Value) (p : String) (old : Value), ∃ l, CompareInterface p old new = some l
  | .null, p, old => by cases old <;> simp [CompareInterface, TypeOf, DeepEqual]
  | .bool _, p, old => by
      cases old <;> simp [CompareInterface, TypeOf, DeepEqual]
      split <;> simp
  | .num _, p, old => by
      cases old <;> simp [CompareInterface, TypeOf, DeepEqual]
      split <;> simp
  | .str _, p, old => by
      cases old <;> simp [CompareInterface, TypeOf, DeepEqual]
      split <;> simp
  | .obj n, p, old => by
      cases old with
      | obj s =>
        obtain ⟨l, hl⟩ := compareMapNew_total n p s
        simp [CompareInterface, TypeOf, hl]
      | _ => simp [CompareInterface, TypeOf]
  | .arr n, p, old => by
      cases old <;> simp [CompareInterface, TypeOf]
theorem compareMapNew_total :
    ∀ (new : List (String × Value)) (p : String) (old : List (String × Value)),
      ∃ l, CompareMapNew p old new = some l
  | [], p, old => by simp [CompareMapNew]
  | (k, v) :: rest, p, old => by
      obtain ⟨l, hl⟩ := compareMapNew_total rest p old
      obtain ⟨d, hd⟩ := compareInterface_total v (p ++ "." ++ k) (index old k)
      by_cases h : hasKey old k = true <;> simp [CompareMapNew, h, hl, hd]
end

theorem compareMap_total (p : String) (old new : List (String × Value)) :
    ∃ l, CompareMap p old new = some l := by
  obtain ⟨l, hl⟩ := compareMapNew_total new p old
  exact ⟨oldOnly p old new ++ l, by simp [CompareMap, hl]⟩

theorem compareInterface_obj (p : String) (s n : List (String × Value)) :
    CompareInterface p (.obj s) (.obj n) = CompareMap p s n := by
  simp [CompareInterface, TypeOf, CompareMap]

/-! ## Reflexivity -/

theorem WFMembers_mem (m : List (String × Value)) (h : Value.WFMembers m = true)
    (e : String × Value) (he : e ∈ m) : e.2.WF = true := by
  induction m with
  | nil => simp at he
  | cons e2 r ih =>
    obtain ⟨k2, v2⟩ := e2
    simp only [Value.WFMembers, Bool.and_eq_true] at h
    rcases List.mem_cons.1 he with rfl | he
    · exact h.1
    · exact ih h.2 he

theorem WFElems_mem (a : List Value) (h : Value.WFElems a = true)
    (v : Value) (hv : v ∈ a) : v.WF = true := by
  induction a with
  | nil => simp at hv
  | cons v2 r ih =>
    simp only [Value.WFElems, Bool.and_eq_true] at h
    rcases List.mem_cons.1 hv with rfl | hv
    · exact h.1
    · exact ih h.2 hv

mutual
theorem compareInterface_refl :
    ∀ (x : Value) (p : String), x.WF = true → CompareInterface p x x = some []
  | .null, p, _ => by simp [CompareInterface, TypeOf, DeepEqual]
  | .bool _, p, _ => by simp [CompareInterface, TypeOf, DeepEqual]
  | .num _, p, _ => by simp [CompareInterface, TypeOf, DeepEqual, float64.eq_self]
  | .str _, p, _ => by simp [CompareInterface, TypeOf, DeepEqual]
  | .obj m, p, h => by
      simp only [Value.WF, Bool.and_eq_true, decide_eq_true_eq] at h
      have := compareMapNew_refl m p m h.2 (fun e he => index_of_mem_nodup m h.1 e he)
        (fun e he => hasKey_of_mem m e he)
      simp [CompareInterface, TypeOf, this, oldOnly_self]
  | .arr a, p, _ => by
      simp [CompareInterface, TypeOf, (compareArray_nil_iff p a a).2 (List.Perm.refl _)]
theorem compareMapNew_refl :
    ∀ (rest : List (String × Value)) (p : String) (m : List (String × Value)),
      Value.WFMembers rest = true → (∀ e ∈ rest, index m e.1 = e.2) →
      (∀ e ∈ rest, hasKey m e.1 = true) → CompareMapNew p m rest = some []
  | [], p, m, _, _, _ => by simp [CompareMapNew]
  | (k, v) :: rest, p, m, hwf, hidx, hkey => by
      simp only [Value.WFMembers, Bool.and_eq_true] at hwf
      have h1 := compareMapNew_refl rest p m hwf.2
        (fun e he => hidx e (List.mem_cons_of_mem _ he))
        (fun e he => hkey e (List.mem_cons_of_mem _ he))
      have h2 := compareInterface_refl v (p ++ "." ++ k) hwf.1
      have h3 : index m k = v := hidx (k, v) (List.mem_cons_self _ _)
      have h4 : hasKey m k = true := hkey (k, v) (List.mem_cons_self _ _)
      simp [CompareMapNew, h1, h2, h3, h4]
end

/-! ## Entries for the keys missing on one side -/

theorem compareMapNew_length (p : String) (old : List (String × Value)) :
    ∀ (new : List (String × Value)) (l : List diff), CompareMapNew p old new = some l →
      l.length = (new.filter (fun e => !hasKey old e.1)).length
        + ((new.filter (fun e => hasKey old e.1)).map (fun e =>
            ((CompareInterface (p ++ "." ++ e.1) (index old e.1) e.2).getD []).length)).sum
  | [], l, h => by
      simp [CompareMapNew] at h
      subst h
      simp
  | (k, v) :: rest, l, h => by
      obtain ⟨l2, hl2⟩ := compareMapNew_total rest p old
      obtain ⟨d, hd⟩ := compareInterface_total v (p ++ "." ++ k) (index old k)
      have ih := compareMapNew_length p old rest l2 hl2
      by_cases hk : hasKey old k = true
      · simp [CompareMapNew, hk, hl2, hd] at h
        subst h
        simp [hk, hd, ih]
        omega
      · simp [CompareMapNew, hk, hl2] at h
        subst h
        simp [hk, ih]
        omega

/-- C1 (diff reflexivity): comparing a document with itself reports nothing, and so does
comparing an object with itself through `CompareMap`. -/
theorem C1_diff_reflexive (p : String) (x : Value) (o : List (String × Value))
    (hx : x.WF = true) (ho : (Value.obj o).WF = true) :
    CompareInterface p x x = some [] ∧ CompareMap p o o = some [] :=
  ⟨compareInterface_refl x p hx,
   by rw [← compareInterface_obj]; exact compareInterface_refl (.obj o) p ho⟩

theorem C1_diff_reflexive_witness :
    (Value.obj [("a", .arr [.num (.int 1), .null]), ("b", .str "x")]).WF = true
    ∧ (Value.obj [("k", .obj [("n", .bool true)])]).WF = true
    ∧ CompareInterface "p" (.obj [("a", .arr [.num (.int 1), .null]), ("b", .str "x")])
        (.obj [("a", .arr [.num (.int 1), .null]), ("b", .str "x")]) = some []
    ∧ CompareMap "p" [("k", .obj [("n", .bool true)])] [("k", .obj [("n", .bool true)])]
        = some [] :=
  ⟨by decide, by decide,
   (C1_diff_reflexive "p" _ [("k", .obj [("n", .bool true)])] (by decide) (by decide)).1,
   (C1_diff_reflexive "p" (.obj [("a", .arr [.num (.int 1), .null]), ("b", .str "x")]) _
      (by decide) (by decide)).2⟩

/-- C3 (array multiset equivalence): comparing an array with any permutation of it
reports nothing. -/
theorem C3_array_permutation (p : String) (a b : List Value) (h : a.Perm b) :
    CompareArrayInterface p a b = [] :=
  (compareArray_nil_iff p a b).2 (h.map Marshal)

theorem C3_array_permutation_witness :
    List.Perm [Value.num (.int 1), .num (.int 2), .num (.int 2)] [.num (.int 2), .num (.int 1), .num (.int 2)]
    ∧ CompareArrayInterface "p" [.num (.int 1), .num (.int 2), .num (.int 2)] [.num (.int 2), .num (.int 1), .num (.int 2)] = [] :=
  ⟨List.Perm.swap _ _ _, C3_array_permutation "p" _ _ (List.Perm.swap _ _ _)⟩

/-- C4 (evaluation at the failing input): on `[1,2,2]` against `[1,2]` the old list of the
single entry is `[2,2]`, the surplus element once for each of its two occurrences in
`old`, not the multiset difference `[2]`; the mirrored input `[1,2]` against `[1,2,2]`
yields the new list `[2]`, the multiset difference, through the second loop. -/
theorem C4_old_only_doubled :
    CompareArrayInterface "p" [.num (.int 1), .num (.int 2), .num (.int 2)] [.num (.int 1), .num (.int 2)]
      = [⟨"p", .arr [.num (.int 2), .num (.int 2)], .arr []⟩]
    ∧ CompareArrayInterface "p" [.num (.int 1), .num (.int 2)] [.num (.int 1), .num (.int 2), .num (.int 2)]
      = [⟨"p", .arr [], .arr [.num (.int 2)]⟩] := by
  decide

/-- C5 (evaluation at the failing input): for a key that only `new` has, the entry carries
`old[k]`, which is nil, in its `New` field, not the value `new[k]`. -/
theorem C5_new_only_key_loses_value :
    CompareMap "" [] [("a", .num (.int 1))] = some [⟨".a", .null, .null⟩] := by
  decide

/-- C6 (keys missing on one side): `CompareMap` returns a list that holds, for every key of
`old` that `new` lacks, the entry with the extended path, `old[k]` and a nil `New`; and the
list has one entry for each key held by exactly one of the two maps, plus the entries of the
recursive comparisons under the keys held by both. -/
theorem C6_missing_keys (path : String) (old new : List (String × Value)) :
    ∃ l, CompareMap path old new = some l
      ∧ (∀ k, hasKey old k = true → hasKey new k = false →
          (⟨path ++ "." ++ k, index old k, Value.null⟩ : diff) ∈ l)
      ∧ l.length
          = ((old.filter (fun e => !hasKey new e.1)).length
              + (new.filter (fun e => !hasKey old e.1)).length)
            + ((new.filter (fun e => hasKey old e.1)).map (fun e =>
                ((CompareInterface (path ++ "." ++ e.1) (index old e.1) e.2).getD []).length)).sum := by
  obtain ⟨l2, hl2⟩ := compareMapNew_total new path old
  refine ⟨oldOnly path old new ++ l2, by simp [CompareMap, hl2], ?_, ?_⟩
  · intro k ho hn
    exact List.mem_append_left _ (oldOnly_mem path old new k ho hn)
  · rw [List.length_append, compareMapNew_length path old new l2 hl2]
    simp [oldOnly]
    omega

theorem C6_missing_keys_witness :
    ∃ l, CompareMap "" [("a", .num (.int 1)), ("c", .num (.int 3))] [("b", .num (.int 2)), ("c", .num (.int 4))] = some l
      ∧ (⟨".a", .num (.int 1), Value.null⟩ : diff) ∈ l ∧ l.length = 3 := by
  obtain ⟨l, h1, h2, h3⟩ :=
    C6_missing_keys "" [("a", .num (.int 1)), ("c", .num (.int 3))] [("b", .num (.int 2)), ("c", .num (.int 4))]
  refine ⟨l, h1, ?_, ?_⟩
  · exact h2 "a" (by decide) (by decide)
  · rw [h3]; decide

/-- C7 (type-mismatch short-circuit): when the two values are of different node variants,
the comparison returns exactly one entry, at the path itself, carrying the two raw values. -/
theorem C7_type_mismatch (p : String) (old new : Value) (h : old.variant ≠ new.variant) :
    CompareInterface p old new = some [⟨p, old, new⟩] := by
  cases old <;> cases new <;> simp [CompareInterface, TypeOf, Value.variant] at h ⊢

theorem C7_type_mismatch_witness :
    (Value.obj [("x", .num (.int 1))]).variant ≠ (Value.arr [.num (.int 1)]).variant
    ∧ CompareInterface "p" (.obj [("x", .num (.int 1))]) (.arr [.num (.int 1)])
        = some [⟨"p", .obj [("x", .num (.int 1))], .arr [.num (.int 1)]⟩] :=
  ⟨by decide, C7_type_mismatch "p" _ _ (by decide)⟩

/-! ## The text of a number -/

theorem digitVal_digitChar (m : Nat) (h : m < 10) : digitVal (Nat.digitChar m) = m := by
  interval_cases m <;> decide

theorem isNumChar_digitChar (m : Nat) (h : m < 10) : isNumChar (Nat.digitChar m) = true := by
  interval_cases m <;> decide

theorem hexVal_digitChar (m : Nat) (h : m < 16) : hexVal (Nat.digitChar m) = m := by
  interval_cases m <;> decide

theorem toDigitsCore_val (fuel : Nat) : ∀ (n : Nat) (ds : List Char), n < fuel →
    (Nat.toDigitsCore 10 fuel n ds).foldl (fun acc c => acc * 10 + digitVal c) 0
      = ds.foldl (fun acc c => acc * 10 + digitVal c) n := by
  induction fuel with
  | zero => intro n ds h; omega
  | succ f ih =>
    intro n ds h
    simp only [Nat.toDigitsCore]
    by_cases h0 : n / 10 = 0
    · simp only [h0, if_true, List.foldl_cons, Nat.zero_mul, Nat.zero_add]
      rw [digitVal_digitChar _ (Nat.mod_lt _ (by decide))]
      have : n % 10 = n := Nat.mod_eq_of_lt (by omega)
      rw [this]
    · simp only [h0, if_false]
      rw [ih (n / 10) _ (by omega)]
      simp only [List.foldl_cons]
      rw [digitVal_digitChar _ (Nat.mod_lt _ (by decide))]
      have : n / 10 * 10 + n % 10 = n := by omega
      rw [this]

theorem numVal_toDigits (n : Nat) : numVal (Nat.toDigits 10 n) = n := by
  unfold numVal Nat.toDigits
  rw [toDigitsCore_val (n + 1) n [] (by omega)]
  rfl

theorem toDigitsCore_numChar (fuel : Nat) : ∀ (n : Nat) (ds : List Char),
    (∀ c ∈ ds, isNumChar c = true) →
    ∀ c ∈ Nat.toDigitsCore 10 fuel n ds, isNumChar c = true := by
  induction fuel with
  | zero => intro n ds h; simpa [Nat.toDigitsCore] using h
  | succ f ih =>
    intro n ds h
    simp only [Nat.toDigitsCore]
    have hd : ∀ c ∈ Nat.digitChar (n % 10) :: ds, isNumChar c = true := by
      intro c hc
      rcases List.mem_cons.1 hc with rfl | hc
      · exact isNumChar_digitChar _ (Nat.mod_lt _ (by decide))
      · exact h c hc
    by_cases h0 : n / 10 = 0
    · simpa only [h0, if_true] using hd
    · simp only [h0, if_false]
      exact ih _ _ hd

theorem toDigitsCore_head (fuel : Nat) : ∀ (n : Nat) (ds : List Char),
    ∃ c t, Nat.toDigitsCore 10 (fuel + 1) n ds = c :: t ∧ (c = '-' → ds.head? = some '-') := by
  induction fuel with
  | zero =>
    intro n ds
    simp only [Nat.toDigitsCore]
    have hne : Nat.digitChar (n % 10) ≠ '-' := by
      have : n % 10 < 10 := Nat.mod_lt _ (by decide)
      interval_cases (n % 10) <;> decide
    by_cases h0 : n / 10 = 0
    · exact ⟨Nat.digitChar (n % 10), ds, by simp [h0], fun h => absurd h hne⟩
    · exact ⟨Nat.digitChar (n % 10), ds, by simp [h0, Nat.toDigitsCore],
        fun h => absurd h hne⟩
  | succ f ih =>
    intro n ds
    have hne : Nat.digitChar (n % 10) ≠ '-' := by
      have : n % 10 < 10 := Nat.mod_lt _ (by decide)
      interval_cases (n % 10) <;> decide
    rw [Nat.toDigitsCore]
    by_cases h0 : n / 10 = 0
    · exact ⟨Nat.digitChar (n % 10), ds, by simp [h0], fun h => absurd h hne⟩
    · simp only [h0, if_false]
      obtain ⟨c, t, h1, h2⟩ := ih (n / 10) (Nat.digitChar (n % 10) :: ds)
      refine ⟨c, t, h1, fun hc => ?_⟩
      have := h2 hc
      simp at this
      exact absurd this hne

theorem toDigits_head (n : Nat) : ∃ c t, Nat.toDigits 10 n = c :: t ∧ c ≠ '-' := by
  obtain ⟨c, t, h1, h2⟩ := toDigitsCore_head n n []
  exact ⟨c, t, h1, fun hc => by simpa using h2 hc⟩

theorem formatInt_numChar (n : Int) : ∀ c ∈ formatInt n, isNumChar c = true := by
  cases n with
  | ofNat m =>
    exact toDigitsCore_numChar _ _ _ (by simp)
  | negSucc m =>
    intro c hc
    rcases List.mem_cons.1 hc with rfl | hc
    · decide
    · exact toDigitsCore_numChar _ _ _ (by simp) c hc

theorem formatInt_ne_nil (n : Int) : ∃ c t, formatInt n = c :: t := by
  cases n with
  | ofNat m =>
    obtain ⟨c, t, h, _⟩ := toDigits_head m
    exact ⟨c, t, h⟩
  | negSucc m => exact ⟨_, _, rfl⟩

theorem formatInt_injective (n m : Int) (h : formatInt n = formatInt m) : n = m := by
  cases n with
  | ofNat a =>
    cases m with
    | ofNat b =>
      have := congrArg numVal h
      simp only [formatInt, numVal_toDigits] at this
      rw [this]
    | negSucc b =>
      obtain ⟨c, t, h1, h2⟩ := toDigits_head a
      simp only [formatInt, h1, List.cons.injEq] at h
      exact absurd h.1 h2
  | negSucc a =>
    cases m with
    | ofNat b =>
      obtain ⟨c, t, h1, h2⟩ := toDigits_head b
      simp only [formatInt, h1, List.cons.injEq] at h
      exact absurd h.1.symm h2
    | negSucc b =>
      simp only [formatInt, List.cons.injEq, true_and] at h
      have := congrArg numVal h
      simp only [numVal_toDigits] at this
      have hab : a = b := by omega
      rw [hab]

theorem formatFloat_numChar (x : float64) : ∀ c ∈ formatFloat x, isNumChar c = true := by
  cases x with
  | int n => exact formatInt_numChar n
  | negZero => decide

theorem formatFloat_ne_nil (x : float64) : ∃ c t, formatFloat x = c :: t := by
  cases x with
  | int n => exact formatInt_ne_nil n
  | negZero => exact ⟨_, _, rfl⟩

theorem formatInt_ne_negZero (n : Int) : formatInt n ≠ ['-', '0'] := by
  intro h
  cases n with
  | ofNat a =>
    obtain ⟨c, t, h1, h2⟩ := toDigits_head a
    simp only [formatInt, h1, List.cons.injEq] at h
    exact h2 h.1
  | negSucc a =>
    simp only [formatInt, List.cons.injEq, true_and] at h
    have := congrArg numVal h
    rw [numVal_toDigits] at this
    have h0 : numVal ['0'] = 0 := by decide
    omega

/-- The text of a number tells the negative zero from zero. -/
theorem formatFloat_injective (x y : float64) (h : formatFloat x = formatFloat y) : x = y := by
  cases x with
  | int n =>
    cases y with
    | int m => rw [formatInt_injective n m h]
    | negZero => exact absurd h (formatInt_ne_negZero n)
  | negZero =>
    cases y with
    | int m => exact absurd h.symm (formatInt_ne_negZero m)
    | negZero => rfl

/-- Two runs of characters of one class, each followed by a text that does not start with a
character of the class, are equal when the whole texts are. -/
theorem span_unique (P : Char → Bool) : ∀ (l1 l2 r1 r2 : List Char),
    (∀ c ∈ l1, P c = true) → (∀ c ∈ l2, P c = true) →
    (∀ c ∈ r1.head?, P c = false) → (∀ c ∈ r2.head?, P c = false) →
    l1 ++ r1 = l2 ++ r2 → l1 = l2 ∧ r1 = r2
  | [], [], r1, r2, _, _, _, _, h => ⟨rfl, by simpa using h⟩
  | [], c :: l2, r1, r2, _, h2, h3, _, h => by
      simp only [List.nil_append, List.cons_append] at h
      subst h
      have := h3 c (by simp)
      rw [h2 c (by simp)] at this
      simp at this
  | c :: l1, [], r1, r2, h1, _, _, h4, h => by
      simp only [List.nil_append, List.cons_append] at h
      subst h
      have := h4 c (by simp)
      rw [h1 c (by simp)] at this
      simp at this
  | c :: l1, d :: l2, r1, r2, h1, h2, h3, h4, h => by
      simp only [List.cons_append, List.cons.injEq] at h
      obtain ⟨hcd, ht⟩ := h
      subst hcd
      obtain ⟨e1, e2⟩ := span_unique P l1 l2 r1 r2
        (fun x hx => h1 x (List.mem_cons_of_mem _ hx))
        (fun x hx => h2 x (List.mem_cons_of_mem _ hx)) h3 h4 ht
      exact ⟨by rw [e1], e2⟩

theorem Terminated.not_numChar {r : List Char} (h : Terminated r) :
    ∀ c ∈ r.head?, isNumChar c = false := by
  intro c hc
  rcases h c hc with rfl | rfl | rfl <;> decide

/-! ## The text of a string -/

theorem unescapeChar_escapeChar (c : Char) (X : List Char) :
    unescapeChar (escapeChar c ++ X) = some (c, X) := by
  have e1 : bslash ≠ dquote := by decide
  have e2 : ('n' : Char) ≠ dquote := by decide
  have e3 : ('n' : Char) ≠ bslash := by decide
  have e4 : ('r' : Char) ≠ dquote := by decide
  have e5 : ('r' : Char) ≠ bslash := by decide
  have e6 : ('t' : Char) ≠ dquote := by decide
  have e7 : ('t' : Char) ≠ bslash := by decide
  have e8 : ('u' : Char) ≠ dquote := by decide
  have e9 : ('u' : Char) ≠ bslash := by decide
  unfold escapeChar
  split_ifs with h1 h2 h3 h4 h5 h6 h7 h8
  · subst h1; simp [unescapeChar]
  · subst h2; simp [unescapeChar, e1]
  · subst h3; simp [unescapeChar, e2, e3]
  · subst h4; simp [unescapeChar, e4, e5]
  · subst h5; simp [unescapeChar, e6, e7]
  · have hlt : c.toNat < 256 := by
      rcases h6 with h | h | h | h
      · omega
      · subst h; decide
      · subst h; decide
      · subst h; decide
    have hd1 : hexVal (Nat.digitChar (c.toNat / 16)) = c.toNat / 16 :=
      hexVal_digitChar _ (by omega)
    have hd2 : hexVal (Nat.digitChar (c.toNat % 16)) = c.toNat % 16 :=
      hexVal_digitChar _ (Nat.mod_lt _ (by decide))
    have h0 : hexVal '0' = 0 := by decide
    have hsum : c.toNat / 16 * 16 + c.toNat % 16 = c.toNat := by omega
    simp [unescapeChar, e8, e9, hd1, hd2, h0, hsum]
  · subst h7
    simp [unescapeChar, e8, e9]
    decide
  · subst h8
    simp [unescapeChar, e8, e9]
    decide
  · simp [unescapeChar, h2]

theorem escapeChar_head (c : Char) : ∃ h t, escapeChar c = h :: t ∧ h ≠ dquote := by
  have e1 : bslash ≠ dquote := by decide
  unfold escapeChar
  split_ifs with h1 h2 h3 h4 h5 h6 h7 h8
  all_goals first
    | exact ⟨_, _, rfl, e1⟩
    | exact ⟨_, _, rfl, h1⟩

theorem escape_unique : ∀ (l1 l2 r1 r2 : List Char),
    escape l1 ++ dquote :: r1 = escape l2 ++ dquote :: r2 → l1 = l2 ∧ r1 = r2
  | [], [], r1, r2, h => by simpa [escape] using h
  | [], c :: l2, r1, r2, h => by
      obtain ⟨x, t, hx, hne⟩ := escapeChar_head c
      simp only [escape, List.nil_append, hx, List.cons_append, List.cons.injEq] at h
      exact absurd h.1.symm hne
  | c :: l1, [], r1, r2, h => by
      obtain ⟨x, t, hx, hne⟩ := escapeChar_head c
      simp only [escape, List.nil_append, hx, List.cons_append, List.cons.injEq] at h
      exact absurd h.1 hne
  | c :: l1, d :: l2, r1, r2, h => by
      simp only [escape, List.append_assoc] at h
      have h2 := congrArg unescapeChar h
      rw [unescapeChar_escapeChar, unescapeChar_escapeChar] at h2
      simp only [Option.some.injEq, Prod.mk.injEq] at h2
      obtain ⟨e1, e2⟩ := escape_unique l1 l2 r1 r2 h2.2
      exact ⟨by rw [h2.1, e1], e2⟩

theorem quote_unique (s1 s2 : String) (r1 r2 : List Char)
    (h : quote s1 ++ r1 = quote s2 ++ r2) : s1 = s2 ∧ r1 = r2 := by
  unfold quote at h
  simp only [List.cons_append, List.append_assoc, List.singleton_append, List.cons.injEq,
    true_and] at h
  obtain ⟨e1, e2⟩ := escape_unique _ _ _ _ h
  exact ⟨String.ext e1, e2⟩

/-! ## The order of the keys -/

theorem strLE_total : ∀ a b : List Char, strLE a b = true ∨ strLE b a = true
  | [], _ => Or.inl (by simp [strLE])
  | _ :: _, [] => Or.inr (by simp [strLE])
  | a :: r, b :: s => by
      rcases Nat.lt_trichotomy a.toNat b.toNat with h | h | h
      · left; simp [strLE, h]
      · have h1 : ¬ a.toNat < b.toNat := by omega
        have h2 : ¬ b.toNat < a.toNat := by omega
        simpa [strLE, h1, h2] using strLE_total r s
      · right; simp [strLE, h]

theorem strLE_trans : ∀ a b c : List Char, strLE a b = true → strLE b c = true →
    strLE a c = true
  | [], _, _, _, _ => by simp [strLE]
  | _ :: _, [], _, h, _ => by simp [strLE] at h
  | _ :: _, _ :: _, [], _, h => by simp [strLE] at h
  | a :: r, b :: s, c :: t, h1, h2 => by
      simp only [strLE] at h1 h2 ⊢
      by_cases hab : a.toNat < b.toNat
      · by_cases hbc : b.toNat < c.toNat
        · have : a.toNat < c.toNat := by omega
          simp [this]
        · by_cases hcb : c.toNat < b.toNat
          · simp [hbc, hcb] at h2
          · have : a.toNat < c.toNat := by omega
            simp [this]
      · by_cases hba : b.toNat < a.toNat
        · simp [hab, hba] at h1
        · simp only [hab, hba, if_false] at h1
          by_cases hbc : b.toNat < c.toNat
          · have : a.toNat < c.toNat := by omega
            simp [this]
          · by_cases hcb : c.toNat < b.toNat
            · simp [hbc, hcb] at h2
            · simp only [hbc, hcb, if_false] at h2
              have e1 : ¬ a.toNat < c.toNat := by omega
              have e2 : ¬ c.toNat < a.toNat := by omega
              simp only [e1, e2, if_false]
              exact strLE_trans r s t h1 h2

theorem strLE_antisymm : ∀ a b : List Char, strLE a b = true → strLE b a = true → a = b
  | [], [], _, _ => rfl
  | [], _ :: _, _, h => by simp [strLE] at h
  | _ :: _, [], h, _ => by simp [strLE] at h
  | a :: r, b :: s, h1, h2 => by
      simp only [strLE] at h1 h2
      by_cases hab : a.toNat < b.toNat
      · have hba : ¬ b.toNat < a.toNat := by omega
        simp [hab, hba] at h2
      · by_cases hba : b.toNat < a.toNat
        · simp [hab, hba] at h1
        · simp only [hab, hba, if_false] at h1 h2
          have hn : a.toNat = b.toNat := by omega
          have hc : a = b := by
            rw [← Char.ofNat_toNat a, ← Char.ofNat_toNat b, hn]
          rw [hc, strLE_antisymm r s h1 h2]

/-- Two entries each below the other have the same key. -/
theorem keyLE_antisymm {α : Type} (a b : String × α) (h1 : keyLE a b) (h2 : keyLE b a) :
    a.1 = b.1 :=
  String.ext (strLE_antisymm _ _ h1 h2)

/-- Two lists with the same entries and pairwise distinct keys are written in the same
order. -/
theorem insertionSort_eq_of_perm {α : Type} (l1 l2 : List (String × α)) (hp : l1.Perm l2)
    (hnd : (l1.map Prod.fst).Nodup) :
    List.insertionSort keyLE l1 = List.insertionSort keyLE l2 := by
  have hp' : (List.insertionSort keyLE l1).Perm (List.insertionSort keyLE l2) :=
    ((List.perm_insertionSort keyLE l1).trans hp).trans (List.perm_insertionSort keyLE l2).symm
  have hnd1 : ((List.insertionSort keyLE l1).map Prod.fst).Nodup :=
    (((List.perm_insertionSort keyLE l1).map Prod.fst).nodup_iff).2 hnd
  have hnd2 : ((List.insertionSort keyLE l2).map Prod.fst).Nodup :=
    ((hp'.map Prod.fst).nodup_iff).1 hnd1
  have hs : ∀ l : List (String × α), (l.map Prod.fst).Nodup → List.Sorted keyLE l →
      List.Sorted (fun a b => keyLE a b ∧ a.1 ≠ b.1) l := by
    intro l hn hsorted
    have hpw : List.Pairwise (fun a b : String × α => a.1 ≠ b.1) l :=
      List.pairwise_map.1 hn
    exact List.Pairwise.and hsorted hpw
  haveI : IsTotal (String × α) keyLE :=
    ⟨fun a b => strLE_total a.1.toList b.1.toList⟩
  haveI : IsTrans (String × α) keyLE :=
    ⟨fun a b c => strLE_trans a.1.toList b.1.toList c.1.toList⟩
  haveI : IsAntisymm (String × α) (fun a b => keyLE a b ∧ a.1 ≠ b.1) :=
    ⟨fun a b h1 h2 => absurd (keyLE_antisymm a b h1.1 h2.1) h1.2⟩
  exact List.eq_of_perm_of_sorted hp'
    (hs _ hnd1 (List.sorted_insertionSort keyLE l1))
    (hs _ hnd2 (List.sorted_insertionSort keyLE l2))

/-! ## Unique reading of the JSON text -/

theorem joinComma_cons_split (t : List Char) (ts : List (List Char)) (X : List Char)
    (close : Char) (hclose : close = ']' ∨ close = '}') :
    ∃ Z, joinComma (t :: ts) ++ close :: X = t ++ Z ∧ Terminated Z
      ∧ ((ts = [] ∧ Z = close :: X) ∨ (ts ≠ [] ∧ Z = ',' :: (joinComma ts ++ close :: X))) := by
  cases ts with
  | nil =>
    refine ⟨close :: X, by simp [joinComma], ?_, Or.inl ⟨rfl, rfl⟩⟩
    intro c hc
    simp only [List.head?_cons, Option.mem_def, Option.some.injEq] at hc
    subst hc
    exact Or.inr hclose
  | cons u us =>
    refine ⟨',' :: (joinComma (u :: us) ++ close :: X), by simp [joinComma], ?_,
      Or.inr ⟨by simp, rfl⟩⟩
    intro c hc
    simp only [List.head?_cons, Option.mem_def, Option.some.injEq] at hc
    exact Or.inl hc.symm

theorem joined_unique {α : Type} (f : α → List Char) (R : α → α → Prop) (close : Char)
    (hclose : close = ']' ∨ close = '}')
    (hhead : ∀ x, ∃ c t, f x = c :: t ∧ c ≠ ',' ∧ c ≠ close) :
    ∀ (xs ys : List α) (r1 r2 : List Char),
      (∀ x ∈ xs, ∀ y ∈ ys, ∀ s1 s2, Terminated s1 → Terminated s2 →
        f x ++ s1 = f y ++ s2 → R x y ∧ s1 = s2) →
      joinComma (xs.map f) ++ close :: r1 = joinComma (ys.map f) ++ close :: r2 →
      List.Forall₂ R xs ys ∧ r1 = r2
  | [], [], r1, r2, _, h => by
      simp only [List.map_nil, joinComma, List.nil_append, List.cons.injEq, true_and] at h
      exact ⟨List.Forall₂.nil, h⟩
  | [], y :: ys, r1, r2, _, h => by
      obtain ⟨Z, hZ, _, _⟩ := joinComma_cons_split (f y) (ys.map f) r2 close hclose
      obtain ⟨c, t, hc, _, hne⟩ := hhead y
      rw [List.map_cons, hZ, hc] at h
      simp only [List.map_nil, joinComma, List.nil_append, List.cons_append,
        List.cons.injEq] at h
      exact absurd h.1.symm hne
  | x :: xs, [], r1, r2, _, h => by
      obtain ⟨Z, hZ, _, _⟩ := joinComma_cons_split (f x) (xs.map f) r1 close hclose
      obtain ⟨c, t, hc, _, hne⟩ := hhead x
      rw [List.map_cons, hZ, hc] at h
      simp only [List.map_nil, joinComma, List.nil_append, List.cons_append,
        List.cons.injEq] at h
      exact absurd h.1 hne
  | x :: xs, y :: ys, r1, r2, hstep, h => by
      obtain ⟨Z1, hZ1, hT1, hc1⟩ := joinComma_cons_split (f x) (xs.map f) r1 close hclose
      obtain ⟨Z2, hZ2, hT2, hc2⟩ := joinComma_cons_split (f y) (ys.map f) r2 close hclose
      rw [List.map_cons, List.map_cons, hZ1, hZ2] at h
      obtain ⟨hR, hZ⟩ := hstep x (List.mem_cons_self _ _) y (List.mem_cons_self _ _) Z1 Z2
        hT1 hT2 h
      have hcomma : close ≠ ',' := by
        rcases hclose with rfl | rfl <;> decide
      rcases hc1 with ⟨hx, e1⟩ | ⟨hx, e1⟩ <;> rcases hc2 with ⟨hy, e2⟩ | ⟨hy, e2⟩
      · rw [e1, e2] at hZ
        simp only [List.cons.injEq, true_and] at hZ
        simp only [List.map_eq_nil_iff] at hx hy
        subst hx hy
        exact ⟨List.Forall₂.cons hR List.Forall₂.nil, hZ⟩
      · rw [e1, e2] at hZ
        simp only [List.cons.injEq] at hZ
        exact absurd hZ.1 hcomma
      · rw [e1, e2] at hZ
        simp only [List.cons.injEq] at hZ
        exact absurd hZ.1.symm hcomma
      · rw [e1, e2] at hZ
        simp only [List.cons.injEq, true_and] at hZ
        obtain ⟨hF, hr⟩ := joined_unique f R close hclose hhead xs ys r1 r2
          (fun a ha b hb => hstep a (List.mem_cons_of_mem _ ha) b (List.mem_cons_of_mem _ hb)) hZ
        exact ⟨List.Forall₂.cons hR hF, hr⟩

theorem encodeElems_eq_map (a : List Value) : encodeElems a = a.map encode := by
  induction a with
  | nil => rfl
  | cons v r ih => simp [encodeElems, ih]

theorem encodeMembers_eq_map (m : List (String × Value)) :
    encodeMembers m = m.map (fun e => (e.1, encode e.2)) := by
  induction m with
  | nil => rfl
  | cons e r ih =>
    obtain ⟨k, v⟩ := e
    simp [encodeMembers, ih]

theorem sorted_encodeMembers (m : List (String × Value)) :
    List.insertionSort keyLE (encodeMembers m)
      = (List.insertionSort keyLE m).map (fun e => (e.1, encode e.2)) := by
  rw [encodeMembers_eq_map]
  exact (List.map_insertionSort (@keyLE Value) (@keyLE (List Char))
    (fun e => (e.1, encode e.2)) m (fun _ _ _ _ => Iff.rfl)).symm

/-- Class of the first character of an encoded value, one class for each constructor. -/
theorem encode_head (v : Value) : ∃ c t, encode v = c :: t ∧
    (match v with
      | .null => c = 'n'
      | .bool _ => c = 't' ∨ c = 'f'
      | .num _ => isNumChar c = true
      | .str _ => c = dquote
      | .obj _ => c = '{'
      | .arr _ => c = '[') := by
  cases v with
  | null => exact ⟨_, _, rfl, rfl⟩
  | bool b => cases b <;> simp [encode]
  | num n =>
    obtain ⟨c, t, h⟩ := formatFloat_ne_nil n
    exact ⟨c, t, h, formatFloat_numChar n c (by rw [h]; simp)⟩
  | str s => exact ⟨_, _, rfl, rfl⟩
  | obj m => exact ⟨_, _, rfl, rfl⟩
  | arr a => exact ⟨_, _, rfl, rfl⟩

theorem encode_head_not_sep (v : Value) (close : Char) (hclose : close = ']' ∨ close = '}') :
    ∃ c t, encode v = c :: t ∧ c ≠ ',' ∧ c ≠ close := by
  obtain ⟨c, t, h, hc⟩ := encode_head v
  refine ⟨c, t, h, ?_⟩
  cases v with
  | null => simp only at hc; subst hc; rcases hclose with rfl | rfl <;> decide
  | bool b =>
    simp only at hc
    rcases hc with rfl | rfl <;> rcases hclose with rfl | rfl <;> decide
  | num n =>
    simp only at hc
    constructor
    · rintro rfl; exact absurd hc (by decide)
    · rintro rfl; rcases hclose with rfl | rfl <;> exact absurd hc (by decide)
  | str s => simp only at hc; subst hc; rcases hclose with rfl | rfl <;> decide
  | obj m => simp only at hc; subst hc; rcases hclose with rfl | rfl <;> decide
  | arr a => simp only at hc; subst hc; rcases hclose with rfl | rfl <;> decide

theorem encode_headType (v : Value) : ∃ c t, encode v = c :: t ∧ headType c = TypeOf v := by
  obtain ⟨c, t, h, hc⟩ := encode_head v
  refine ⟨c, t, h, ?_⟩
  cases v with
  | null => simp only at hc; subst hc; rfl
  | bool b => simp only at hc; rcases hc with rfl | rfl <;> rfl
  | num n =>
    simp only at hc
    have h1 : c ≠ 'n' := by rintro rfl; exact absurd hc (by decide)
    have h2 : c ≠ 't' := by rintro rfl; exact absurd hc (by decide)
    have h3 : c ≠ 'f' := by rintro rfl; exact absurd hc (by decide)
    simp [headType, h1, h2, h3, hc, TypeOf]
  | str s => simp only at hc; subst hc; rfl
  | obj m => simp only at hc; subst hc; rfl
  | arr a => simp only at hc; subst hc; rfl

theorem typeOf_eq_of_encode (a b : Value) (r1 r2 : List Char)
    (h : encode a ++ r1 = encode b ++ r2) : TypeOf a = TypeOf b := by
  obtain ⟨c1, t1, h1, e1⟩ := encode_headType a
  obtain ⟨c2, t2, h2, e2⟩ := encode_headType b
  rw [h1, h2] at h
  simp only [List.cons_append, List.cons.injEq] at h
  rw [← e1, ← e2, h.1]

theorem deepEqualElems_iff (a b : List Value) :
    DeepEqualElems a b = true ↔ List.Forall₂ (fun x y => DeepEqual x y = true) a b := by
  induction a generalizing b with
  | nil => cases b <;> simp [DeepEqualElems]
  | cons v r ih =>
    cases b with
    | nil => simp [DeepEqualElems]
    | cons w s => simp [DeepEqualElems, ih]

theorem deepEqualMembers_iff (m1 m2 : List (String × Value)) :
    DeepEqualMembers m1 m2 = true
      ↔ ∀ e ∈ m1, ∃ v2, m2.lookup e.1 = some v2 ∧ DeepEqual e.2 v2 = true := by
  induction m1 with
  | nil => simp [DeepEqualMembers]
  | cons e r ih =>
    obtain ⟨k, v⟩ := e
    simp only [DeepEqualMembers, Bool.and_eq_true, ih, List.forall_mem_cons]
    constructor
    · rintro ⟨h1, h2⟩
      refine ⟨?_, h2⟩
      cases hl : List.lookup k m2 with
      | none => simp [hl] at h1
      | some v2 => exact ⟨v2, rfl, by simpa [hl] using h1⟩
    · rintro ⟨⟨v2, hl, hd⟩, h2⟩
      exact ⟨by simpa [hl] using hd, h2⟩

theorem forall2_exists_right {α : Type} (R : α → α → Prop) (l1 l2 : List α)
    (h : List.Forall₂ R l1 l2) : ∀ x ∈ l1, ∃ y ∈ l2, R x y := by
  induction h with
  | nil => simp
  | cons hr _ ih =>
    intro x hx
    rcases List.mem_cons.1 hx with rfl | hx
    · exact ⟨_, List.mem_cons_self _ _, hr⟩
    · obtain ⟨y, hy, hxy⟩ := ih x hx
      exact ⟨y, List.mem_cons_of_mem _ hy, hxy⟩

theorem WF_obj (m : List (String × Value)) :
    (Value.obj m).WF = true ↔ (m.map Prod.fst).Nodup ∧ ∀ e ∈ m, e.2.WF = true := by
  simp only [Value.WF, Bool.and_eq_true, decide_eq_true_eq]
  constructor
  · rintro ⟨h1, h2⟩
    exact ⟨h1, WFMembers_mem m h2⟩
  · rintro ⟨h1, h2⟩
    refine ⟨h1, ?_⟩
    induction m with
    | nil => rfl
    | cons e r ih =>
      obtain ⟨k, v⟩ := e
      simp only [Value.WFMembers, Bool.and_eq_true]
      simp only [List.map_cons, List.nodup_cons] at h1
      exact ⟨h2 (k, v) (List.mem_cons_self _ _),
        ih h1.2 (fun e he => h2 e (List.mem_cons_of_mem _ he))⟩

theorem WF_arr (a : List Value) :
    (Value.arr a).WF = true ↔ ∀ v ∈ a, v.WF = true := by
  simp only [Value.WF]
  constructor
  · exact WFElems_mem a
  · intro h
    induction a with
    | nil => rfl
    | cons v r ih =>
      simp only [Value.WFElems, Bool.and_eq_true]
      exact ⟨h v (List.mem_cons_self _ _), ih (fun w hw => h w (List.mem_cons_of_mem _ hw))⟩

theorem readsBack_arr (a : List Value) (ih : ∀ v ∈ a, ReadsBack v) : ReadsBack (.arr a) := by
  intro b r1 r2 ha hb hT1 hT2 h
  have ht := typeOf_eq_of_encode _ _ _ _ h
  cases b with
  | arr b =>
    rw [WF_arr] at ha hb
    simp only [encode, encodeElems_eq_map, List.cons_append, List.append_assoc,
      List.singleton_append, List.cons.injEq, true_and] at h
    obtain ⟨hF, hr⟩ := joined_unique encode (fun x y => DeepEqual x y = true) ']'
      (Or.inl rfl) (fun x => encode_head_not_sep x ']' (Or.inl rfl)) a b r1 r2
      (fun x hx y hy s1 s2 hs1 hs2 he => ih x hx y s1 s2 (ha x hx) (hb y hy) hs1 hs2 he) h
    exact ⟨by simpa [DeepEqual] using (deepEqualElems_iff a b).2 hF, hr⟩
  | _ => simp [TypeOf] at ht

theorem encodeEntry_head (e : String × Value) (close : Char) (hclose : close = ']' ∨ close = '}') :
    ∃ c t, encodeEntry (e.1, encode e.2) = c :: t ∧ c ≠ ',' ∧ c ≠ close := by
  refine ⟨dquote, _, rfl, by decide, ?_⟩
  rcases hclose with rfl | rfl <;> decide

theorem readsBack_obj (m : List (String × Value)) (ih : ∀ e ∈ m, ReadsBack e.2) :
    ReadsBack (.obj m) := by
  intro b r1 r2 ha hb hT1 hT2 h
  have ht := typeOf_eq_of_encode _ _ _ _ h
  cases b with
  | obj m2 =>
    rw [WF_obj] at ha hb
    simp only [encode, sorted_encodeMembers, List.map_map, List.cons_append,
      List.append_assoc, List.singleton_append, List.cons.injEq, true_and] at h
    have hmem1 : ∀ e, e ∈ List.insertionSort keyLE m ↔ e ∈ m :=
      fun e => (List.perm_insertionSort keyLE m).mem_iff
    have hmem2 : ∀ e, e ∈ List.insertionSort keyLE m2 ↔ e ∈ m2 :=
      fun e => (List.perm_insertionSort keyLE m2).mem_iff
    obtain ⟨hF, hr⟩ := joined_unique (fun e : String × Value => encodeEntry (e.1, encode e.2))
      (fun e1 e2 => e1.1 = e2.1 ∧ DeepEqual e1.2 e2.2 = true) '}'
      (Or.inr rfl) (fun x => encodeEntry_head x '}' (Or.inr rfl))
      (List.insertionSort keyLE m) (List.insertionSort keyLE m2) r1 r2
      (fun x hx y hy s1 s2 hs1 hs2 he => by
        simp only [encodeEntry, List.append_assoc, List.cons_append] at he
        obtain ⟨hk, hrest⟩ := quote_unique _ _ _ _ he
        simp only [List.cons.injEq, true_and] at hrest
        obtain ⟨hd, hs⟩ := ih x ((hmem1 x).1 hx) y.2 s1 s2 (ha.2 x ((hmem1 x).1 hx))
          (hb.2 y ((hmem2 y).1 hy)) hs1 hs2 hrest
        exact ⟨⟨hk, hd⟩, hs⟩) h
    refine ⟨?_, hr⟩
    simp only [DeepEqual, Bool.and_eq_true, beq_iff_eq]
    constructor
    · have := hF.length_eq
      simpa [List.length_insertionSort] using this
    · rw [deepEqualMembers_iff]
      intro e he
      obtain ⟨y, hy, hk, hd⟩ := forall2_exists_right _ _ _ hF e ((hmem1 e).2 he)
      refine ⟨y.2, ?_, hd⟩
      rw [hk]
      exact lookup_of_mem_nodup m2 hb.1 y ((hmem2 y).1 hy)
  | _ => simp [TypeOf] at ht

mutual
theorem readsBack : ∀ a : Value, ReadsBack a
  | .null => by
      intro b r1 r2 _ _ _ _ h
      have ht := typeOf_eq_of_encode _ _ _ _ h
      cases b with
      | null => simpa [encode, DeepEqual] using h
      | _ => simp [TypeOf] at ht
  | .bool x => by
      intro b r1 r2 _ _ _ _ h
      have ht := typeOf_eq_of_encode _ _ _ _ h
      cases b with
      | bool y => cases x <;> cases y <;> simp [encode, DeepEqual] at h ⊢ <;> exact h
      | _ => simp [TypeOf] at ht
  | .num n => by
      intro b r1 r2 _ _ hT1 hT2 h
      have ht := typeOf_eq_of_encode _ _ _ _ h
      cases b with
      | num n2 =>
        simp only [encode] at h
        obtain ⟨e1, e2⟩ := span_unique isNumChar _ _ _ _ (formatFloat_numChar n)
          (formatFloat_numChar n2) hT1.not_numChar hT2.not_numChar h
        rw [formatFloat_injective _ _ e1]
        exact ⟨by simp [DeepEqual, float64.eq_self], e2⟩
      | _ => simp [TypeOf] at ht
  | .str s => by
      intro b r1 r2 _ _ _ _ h
      have ht := typeOf_eq_of_encode _ _ _ _ h
      cases b with
      | str s2 =>
        simp only [encode] at h
        obtain ⟨e1, e2⟩ := quote_unique _ _ _ _ h
        exact ⟨by simpa [DeepEqual] using e1, e2⟩
      | _ => simp [TypeOf] at ht
  | .obj m => readsBack_obj m (readsBack_members m)
  | .arr a => readsBack_arr a (readsBack_elems a)
theorem readsBack_members : ∀ m : List (String × Value), ∀ e ∈ m, ReadsBack e.2
  | [], _, he => by simp at he
  | (k, v) :: r, e, he => by
      rcases List.mem_cons.1 he with h | h
      · rw [h]; exact readsBack v
      · exact readsBack_members r e h
theorem readsBack_elems : ∀ l : List Value, ∀ v ∈ l, ReadsBack v
  | [], _, hv => by simp at hv
  | w :: r, v, hv => by
      rcases List.mem_cons.1 hv with h | h
      · rw [h]; exact readsBack w
      · exact readsBack_elems r v h
end

theorem terminated_nil : Terminated [] := by
  intro c hc
  simp at hc

/-- Two well-formed documents with the same JSON text are deeply equal. -/
theorem deepEqual_of_marshal_eq (a b : Value) (ha : a.WF = true) (hb : b.WF = true)
    (h : Marshal a = Marshal b) : DeepEqual a b = true := by
  have h2 : encode a = encode b := by
    have := congrArg String.data h
    simpa [Marshal] using this
  exact (readsBack a b [] [] ha hb terminated_nil terminated_nil (by rw [h2])).1

/-! ## Deeply equal documents have the same JSON text -/

theorem mem_of_lookup {α : Type} (m : List (String × α)) (k : String) (v : α)
    (h : m.lookup k = some v) : (k, v) ∈ m := by
  induction m with
  | nil => simp [List.lookup] at h
  | cons e r ih =>
    obtain ⟨k2, v2⟩ := e
    by_cases hk : k = k2
    · subst hk
      simp [List.lookup] at h
      subst h
      exact List.mem_cons_self _ _
    · have hb : (k == k2) = false := by simpa using hk
      simp only [List.lookup, hb] at h
      exact List.mem_cons_of_mem _ (ih h)

theorem map_eq_of_forall2 {α β : Type} (R : α → α → Prop) (f : α → β) (l1 l2 : List α)
    (h : List.Forall₂ R l1 l2) (hf : ∀ x ∈ l1, ∀ y ∈ l2, R x y → f x = f y) :
    l1.map f = l2.map f := by
  induction h with
  | nil => rfl
  | cons hr _ ih =>
    simp only [List.map_cons, List.cons.injEq]
    exact ⟨hf _ (List.mem_cons_self _ _) _ (List.mem_cons_self _ _) hr,
      ih (fun x hx y hy => hf x (List.mem_cons_of_mem _ hx) y (List.mem_cons_of_mem _ hy))⟩

theorem noNegZero_obj (m : List (String × Value)) :
    (Value.obj m).noNegZero = true ↔ ∀ e ∈ m, e.2.noNegZero = true := by
  simp only [Value.noNegZero]
  induction m with
  | nil => simp [Value.noNegZeroMembers]
  | cons e r ih =>
    obtain ⟨k, v⟩ := e
    simp only [Value.noNegZeroMembers, Bool.and_eq_true, ih, List.forall_mem_cons]

theorem noNegZero_arr (a : List Value) :
    (Value.arr a).noNegZero = true ↔ ∀ v ∈ a, v.noNegZero = true := by
  simp only [Value.noNegZero]
  induction a with
  | nil => simp [Value.noNegZeroElems]
  | cons v r ih =>
    simp only [Value.noNegZeroElems, Bool.and_eq_true, ih, List.forall_mem_cons]

theorem writesSame_arr (a : List Value) (ih : ∀ v ∈ a, WritesSame v) :
    WritesSame (.arr a) := by
  intro b ha hb hza hzb hd
  cases b with
  | arr b =>
    rw [WF_arr] at ha hb
    rw [noNegZero_arr] at hza hzb
    simp only [DeepEqual] at hd
    rw [deepEqualElems_iff] at hd
    simp only [encode, encodeElems_eq_map]
    rw [map_eq_of_forall2 _ encode a b hd
      (fun x hx y hy hxy => ih x hx y (ha x hx) (hb y hy) (hza x hx) (hzb y hy) hxy)]
  | _ => simp [DeepEqual] at hd

theorem writesSame_obj (m : List (String × Value)) (ih : ∀ e ∈ m, WritesSame e.2) :
    WritesSame (.obj m) := by
  intro b ha hb hza hzb hd
  cases b with
  | obj m2 =>
    rw [WF_obj] at ha hb
    rw [noNegZero_obj] at hza hzb
    simp only [DeepEqual, Bool.and_eq_true, beq_iff_eq] at hd
    obtain ⟨hlen, hmem⟩ := hd
    rw [deepEqualMembers_iff] at hmem
    have hsub : encodeMembers m ⊆ encodeMembers m2 := by
      intro x hx
      rw [encodeMembers_eq_map] at hx ⊢
      obtain ⟨e, he, rfl⟩ := List.mem_map.1 hx
      obtain ⟨v2, hl, hde⟩ := hmem e he
      have hin : (e.1, v2) ∈ m2 := mem_of_lookup m2 e.1 v2 hl
      have henc : encode e.2 = encode v2 :=
        ih e he v2 (ha.2 e he) (hb.2 _ hin) (hza e he) (hzb _ hin) hde
      exact List.mem_map.2 ⟨(e.1, v2), hin, by simp [henc]⟩
    have hkeys : (encodeMembers m).map Prod.fst = m.map Prod.fst := by
      rw [encodeMembers_eq_map, List.map_map]
      rfl
    have hnd : (encodeMembers m).Nodup :=
      List.Nodup.of_map Prod.fst (by rw [hkeys]; exact ha.1)
    have hl2 : (encodeMembers m2).length ≤ (encodeMembers m).length := by
      simp [encodeMembers_eq_map, hlen]
    have hp : (encodeMembers m).Perm (encodeMembers m2) :=
      (List.subperm_of_subset hnd hsub).perm_of_length_le hl2
    simp only [encode]
    rw [insertionSort_eq_of_perm _ _ hp (by rw [hkeys]; exact ha.1)]
  | _ => simp [DeepEqual] at hd

mutual
theorem writesSame : ∀ a : Value, WritesSame a
  | .null => by
      intro b _ _ _ _ hd
      cases b <;> simp [DeepEqual] at hd ⊢
  | .bool x => by
      intro b _ _ _ _ hd
      cases b <;> simp [DeepEqual] at hd ⊢
      rw [hd]
  | .num n => by
      intro b _ _ hza hzb hd
      cases b with
      | num n2 =>
        simp only [Value.noNegZero, decide_eq_true_eq] at hza hzb
        simp only [DeepEqual] at hd
        rw [float64.eq_of_ne_negZero n n2 hza hzb hd]
      | _ => simp [DeepEqual] at hd
  | .str s => by
      intro b _ _ _ _ hd
      cases b <;> simp [DeepEqual] at hd ⊢
      rw [hd]
  | .obj m => writesSame_obj m (writesSame_members m)
  | .arr a => writesSame_arr a (writesSame_elems a)
theorem writesSame_members : ∀ m : List (String × Value), ∀ e ∈ m, WritesSame e.2
  | [], _, he => by simp at he
  | (k, v) :: r, e, he => by
      rcases List.mem_cons.1 he with h | h
      · rw [h]; exact writesSame v
      · exact writesSame_members r e h
theorem writesSame_elems : ∀ l : List Value, ∀ v ∈ l, WritesSame v
  | [], _, hv => by simp at hv
  | w :: r, v, hv => by
      rcases List.mem_cons.1 hv with h | h
      · rw [h]; exact writesSame w
      · exact writesSame_elems r v h
end

/-- The canonical key identifies a well-formed document without a negative zero up to deep
equality. -/
theorem marshal_eq_iff (a b : Value) (ha : a.WF = true) (hb : b.WF = true)
    (hza : a.noNegZero = true) (hzb : b.noNegZero = true) :
    Marshal a = Marshal b ↔ DeepEqual a b = true :=
  ⟨deepEqual_of_marshal_eq a b ha hb,
   fun h => by unfold Marshal; rw [writesSame a b ha hb hza hzb h]⟩

/-! ## Arrays with the same keys -/

theorem perm_map_lift {α β : Type} [DecidableEq α] (f : α → β) :
    ∀ (b a : List α), (a.map f).Perm (b.map f) →
      ∃ c, a.Perm c ∧ List.Forall₂ (fun x y => f x = f y) c b
  | [], a, h => by
      have : a = [] := by simpa using h.eq_nil
      subst this
      exact ⟨[], List.Perm.refl _, List.Forall₂.nil⟩
  | y :: bs, a, h => by
      have hy : f y ∈ a.map f := h.symm.subset (by simp)
      obtain ⟨x, hx, hfx⟩ := List.mem_map.1 hy
      have hpa : a.Perm (x :: a.erase x) := List.perm_cons_erase hx
      have h2 : (f x :: (a.erase x).map f).Perm (f y :: bs.map f) := by
        have := (hpa.map f).symm.trans h
        simpa using this
      rw [hfx] at h2
      obtain ⟨c, hc1, hc2⟩ := perm_map_lift f bs (a.erase x) (List.Perm.cons_inv h2)
      exact ⟨x :: c, hpa.trans (List.Perm.cons x hc1), List.Forall₂.cons hfx hc2⟩

theorem compareArray_nil_iff_same (p : String) (a b : List Value) :
    CompareArrayInterface p a b = [] ↔ SameKeyed (.arr a) (.arr b) := by
  rw [compareArray_nil_iff]
  constructor
  · intro h
    obtain ⟨c, hc1, hc2⟩ := perm_map_lift Marshal b a h
    exact SameUpTo.arr a b c hc1 hc2
  · intro h
    cases h with
    | arr _ _ c hc1 hc2 =>
      have : c.map Marshal = b.map Marshal :=
        map_eq_of_forall2 _ Marshal c b hc2 (fun x _ y _ hxy => hxy)
      rw [← this]
      exact hc1.map Marshal

theorem forall2_imp_mem {α : Type} (R S : α → α → Prop) (l1 l2 : List α)
    (h : List.Forall₂ R l1 l2) (hRS : ∀ x ∈ l1, ∀ y ∈ l2, R x y → S x y) :
    List.Forall₂ S l1 l2 := by
  induction h with
  | nil => exact List.Forall₂.nil
  | cons hr _ ih =>
    exact List.Forall₂.cons
      (hRS _ (List.mem_cons_self _ _) _ (List.mem_cons_self _ _) hr)
      (ih (fun x hx y hy => hRS x (List.mem_cons_of_mem _ hx) y (List.mem_cons_of_mem _ hy)))

/-- On documents of a class closed under taking values and elements, the relation "the
same" only depends on how the matching of array elements decides within the class. -/
theorem sameUpTo_imp (E F : Value → Value → Prop) (P : Value → Prop)
    (hobj : ∀ m k, P (.obj m) → hasKey m k = true → P (index m k))
    (harr : ∀ a v, P (.arr a) → v ∈ a → P v)
    (hEF : ∀ x y, P x → P y → E x y → F x y)
    (a b : Value) (h : SameUpTo E a b) : P a → P b → SameUpTo F a b := by
  induction h with
  | null => exact fun _ _ => SameUpTo.null
  | bool x => exact fun _ _ => SameUpTo.bool x
  | num x y hxy => exact fun _ _ => SameUpTo.num x y hxy
  | str x => exact fun _ _ => SameUpTo.str x
  | obj m1 m2 h1 _ ih =>
    intro hp1 hp2
    exact SameUpTo.obj m1 m2 h1
      (fun k hk => ih k hk (hobj m1 k hp1 hk) (hobj m2 k hp2 (by rw [← h1 k]; exact hk)))
  | arr a b c hc1 hc2 =>
    intro hp1 hp2
    exact SameUpTo.arr a b c hc1
      (forall2_imp_mem _ _ c b hc2
        (fun x hx y hy hxy =>
          hEF x y (harr a x hp1 (hc1.mem_iff.2 hx)) (harr b y hp2 hy) hxy))

/-- On well-formed documents without a negative zero, matching array elements by their
canonical encoding is matching them by structural equality. -/
theorem same_iff_sameKeyed (a b : Value) (ha : a.WF = true) (hb : b.WF = true)
    (hza : a.noNegZero = true) (hzb : b.noNegZero = true) : Same a b ↔ SameKeyed a b := by
  have hobj : ∀ (m : List (String × Value)) (k : String),
      ((Value.obj m).WF = true ∧ (Value.obj m).noNegZero = true) → hasKey m k = true →
      ((index m k).WF = true ∧ (index m k).noNegZero = true) := by
    intro m k hp hk
    exact ⟨((WF_obj m).1 hp.1).2 _ (index_mem_of_hasKey m k hk),
      (noNegZero_obj m).1 hp.2 _ (index_mem_of_hasKey m k hk)⟩
  have harr : ∀ (l : List Value) (v : Value),
      ((Value.arr l).WF = true ∧ (Value.arr l).noNegZero = true) → v ∈ l →
      (v.WF = true ∧ v.noNegZero = true) := by
    intro l v hp hv
    exact ⟨(WF_arr l).1 hp.1 v hv, (noNegZero_arr l).1 hp.2 v hv⟩
  constructor
  · intro h
    exact sameUpTo_imp _ _ (fun v => v.WF = true ∧ v.noNegZero = true) hobj harr
      (fun x y hx hy hxy => (marshal_eq_iff x y hx.1 hy.1 hx.2 hy.2).2 hxy)
      a b h ⟨ha, hza⟩ ⟨hb, hzb⟩
  · intro h
    exact sameUpTo_imp _ _ (fun v => v.WF = true ∧ v.noNegZero = true) hobj harr
      (fun x y hx hy hxy => (marshal_eq_iff x y hx.1 hy.1 hx.2 hy.2).1 hxy)
      a b h ⟨ha, hza⟩ ⟨hb, hzb⟩

/-! ## The differ reports nothing exactly on documents that are the same -/

theorem oldOnly_nil_iff (p : String) (s n : List (String × Value)) :
    oldOnly p s n = [] ↔ ∀ k, hasKey s k = true → hasKey n k = true := by
  unfold oldOnly
  rw [List.map_eq_nil_iff, List.filter_eq_nil_iff]
  constructor
  · intro h k hk
    have := h (k, index s k) (index_mem_of_hasKey s k hk)
    simpa using this
  · intro h e he
    simp [h e.1 (hasKey_of_mem s e he)]

theorem same_obj_iff (s n : List (String × Value)) :
    SameKeyed (.obj s) (.obj n)
      ↔ (∀ k, hasKey s k = hasKey n k)
        ∧ (∀ k, hasKey s k = true → SameKeyed (index s k) (index n k)) := by
  constructor
  · intro h
    cases h with
    | obj _ _ h1 h2 => exact ⟨h1, h2⟩
  · rintro ⟨h1, h2⟩
    exact SameUpTo.obj s n h1 h2

theorem some_append_eq_nil (d l : List diff) : some (d ++ l) = some [] ↔ d = [] ∧ l = [] := by
  simp

mutual
theorem compareInterface_nil_iff :
    ∀ (b : Value) (p : String) (a : Value), a.WF = true → b.WF = true →
      (CompareInterface p a b = some [] ↔ SameKeyed a b)
  | .null, p, a, _, _ => by
      cases a with
      | null => simpa [CompareInterface, TypeOf, DeepEqual] using (SameUpTo.null : SameKeyed .null .null)
      | _ => simp [CompareInterface, TypeOf]; intro h; cases h
  | .bool y, p, a, _, _ => by
      cases a with
      | bool x =>
        simp only [CompareInterface, TypeOf, ne_eq, not_true_eq_false, if_false, DeepEqual]
        constructor
        · intro h
          by_cases hxy : x = y
          · subst hxy; exact SameUpTo.bool x
          · simp [hxy] at h
        · intro h
          cases h
          simp
      | _ => simp [CompareInterface, TypeOf]; intro h; cases h
  | .num y, p, a, _, _ => by
      cases a with
      | num x =>
        simp only [CompareInterface, TypeOf, ne_eq, not_true_eq_false, if_false, DeepEqual]
        constructor
        · intro h
          by_cases hxy : float64.eq x y = true
          · exact SameUpTo.num x y hxy
          · simp [hxy] at h
        · intro h
          cases h with
          | num _ _ hxy => simp [hxy]
      | _ => simp [CompareInterface, TypeOf]; intro h; cases h
  | .str y, p, a, _, _ => by
      cases a with
      | str x =>
        simp only [CompareInterface, TypeOf, ne_eq, not_true_eq_false, if_false, DeepEqual]
        constructor
        · intro h
          by_cases hxy : x = y
          · subst hxy; exact SameUpTo.str x
          · simp [hxy] at h
        · intro h
          cases h
          simp
      | _ => simp [CompareInterface, TypeOf]; intro h; cases h
  | .obj n, p, a, ha, hb => by
      cases a with
      | obj s =>
        rw [WF_obj] at ha hb
        have hs : ∀ k, hasKey s k = true → (index s k).WF = true :=
          fun k hk => ha.2 _ (index_mem_of_hasKey s k hk)
        have hwn : Value.WFMembers n = true := by
          have := (WF_obj n).2 hb
          simp only [Value.WF, Bool.and_eq_true] at this
          exact this.2
        have loop := compareMapNew_nil_iff n p s hs hwn
        obtain ⟨l, hl⟩ := compareMapNew_total n p s
        rw [compareInterface_obj, same_obj_iff]
        unfold CompareMap
        rw [hl] at loop ⊢
        simp only [Option.map_some', some_append_eq_nil, oldOnly_nil_iff]
        have hl' : l = [] ↔ ∀ e ∈ n, hasKey s e.1 = true ∧ SameKeyed (index s e.1) e.2 := by
          rw [← loop]; simp
        rw [hl']
        constructor
        · rintro ⟨hA, hB⟩
          refine ⟨fun k => ?_, fun k hk => ?_⟩
          · rw [Bool.eq_iff_iff]
            exact ⟨hA k, fun hk => (hB _ (index_mem_of_hasKey n k hk)).1⟩
          · exact (hB _ (index_mem_of_hasKey n k (hA k hk))).2
        · rintro ⟨hC, hD⟩
          refine ⟨fun k hk => by rw [← hC k]; exact hk, fun e he => ?_⟩
          have hke : hasKey s e.1 = true := by rw [hC e.1]; exact hasKey_of_mem n e he
          refine ⟨hke, ?_⟩
          have := hD e.1 hke
          rwa [index_of_mem_nodup n hb.1 e he] at this
      | _ => simp [CompareInterface, TypeOf]; intro h; cases h
  | .arr n, p, a, ha, hb => by
      cases a with
      | arr s =>
        rw [WF_arr] at ha hb
        rw [← compareArray_nil_iff_same p s n]
        simp [CompareInterface, TypeOf]
      | _ => simp [CompareInterface, TypeOf]; intro h; cases h
theorem compareMapNew_nil_iff :
    ∀ (rest : List (String × Value)) (p : String) (s : List (String × Value)),
      (∀ k, hasKey s k = true → (index s k).WF = true) → Value.WFMembers rest = true →
      (CompareMapNew p s rest = some []
        ↔ ∀ e ∈ rest, hasKey s e.1 = true ∧ SameKeyed (index s e.1) e.2)
  | [], p, s, _, _ => by simp [CompareMapNew]
  | (k, v) :: rest, p, s, hs, hwf => by
      simp only [Value.WFMembers, Bool.and_eq_true] at hwf
      have ih := compareMapNew_nil_iff rest p s hs hwf.2
      obtain ⟨l, hl⟩ := compareMapNew_total rest p s
      by_cases hk : hasKey s k = true
      · have ihv := compareInterface_nil_iff v (p ++ "." ++ k) (index s k) (hs k hk) hwf.1
        obtain ⟨d, hd⟩ := compareInterface_total v (p ++ "." ++ k) (index s k)
        rw [hd] at ihv
        rw [hl] at ih
        simp only [CompareMapNew, hk, hd, hl, Bool.not_true, Bool.false_eq_true, if_false,
          Option.some_bind, Option.map_some', some_append_eq_nil, List.forall_mem_cons,
          true_and]
        rw [← ih, ← ihv]
        simp
      · simp [CompareMapNew, hk, hl]
end

/-- C2 (entries exactly on difference): on well-formed documents the comparison returns a
list, and the list has at least one entry if and only if the two documents are not the
same, array elements being matched by their canonical encoding; when no negative zero
occurs in the documents that is the spec's sense of the same, array elements matched by
structural equality. -/
theorem C2_entries_iff_differ (p : String) (a b : Value)
    (ha : a.WF = true) (hb : b.WF = true) :
    ∃ l, CompareInterface p a b = some l ∧ (l ≠ [] ↔ ¬ SameKeyed a b)
      ∧ (a.noNegZero = true → b.noNegZero = true → (l ≠ [] ↔ ¬ Same a b)) := by
  obtain ⟨l, hl⟩ := compareInterface_total b p a
  have h := compareInterface_nil_iff b p a ha hb
  rw [hl] at h
  have hk : l ≠ [] ↔ ¬ SameKeyed a b := by
    rw [← h]
    simp
  refine ⟨l, hl, hk, fun hza hzb => ?_⟩
  rw [same_iff_sameKeyed a b ha hb hza hzb]
  exact hk

theorem C2_entries_iff_differ_witness :
    (Value.obj [("a", .arr [.num (.int 1), .obj [("x", .null), ("y", .str "s")]]),
        ("b", .bool true)]).WF = true
    ∧ (Value.obj [("b", .bool true),
        ("a", .arr [.obj [("y", .str "s"), ("x", .null)], .num (.int 1)])]).WF = true
    ∧ (Value.obj [("a", .arr [.num (.int 1), .obj [("x", .null), ("y", .str "s")]]),
        ("b", .bool true)]).noNegZero = true
    ∧ (Value.obj [("b", .bool true),
        ("a", .arr [.obj [("y", .str "s"), ("x", .null)], .num (.int 1)])]).noNegZero = true
    ∧ ∃ l, CompareInterface "p"
          (.obj [("a", .arr [.num (.int 1), .obj [("x", .null), ("y", .str "s")]]),
            ("b", .bool true)])
          (.obj [("b", .bool true),
            ("a", .arr [.obj [("y", .str "s"), ("x", .null)], .num (.int 1)])])
          = some l
        ∧ (l ≠ [] ↔ ¬ SameKeyed
          (.obj [("a", .arr [.num (.int 1), .obj [("x", .null), ("y", .str "s")]]),
            ("b", .bool true)])
          (.obj [("b", .bool true),
            ("a", .arr [.obj [("y", .str "s"), ("x", .null)], .num (.int 1)])]))
        ∧ (l ≠ [] ↔ ¬ Same
          (.obj [("a", .arr [.num (.int 1), .obj [("x", .null), ("y", .str "s")]]),
            ("b", .bool true)])
          (.obj [("b", .bool true),
            ("a", .arr [.obj [("y", .str "s"), ("x", .null)], .num (.int 1)])])) :=
  ⟨by decide, by decide, by decide, by decide,
   (C2_entries_iff_differ "p"
      (.obj [("a", .arr [.num (.int 1), .obj [("x", .null), ("y", .str "s")]]),
        ("b", .bool true)])
      (.obj [("b", .bool true),
        ("a", .arr [.obj [("y", .str "s"), ("x", .null)], .num (.int 1)])])
      (by decide) (by decide)).imp
     (fun _ h => ⟨h.1, h.2.1, h.2.2 (by decide) (by decide)⟩)⟩

/-- C2 (structural equality fails at the negative zero): the arrays `[0]` and `[-0]` are the same in
the spec's sense, their elements being structurally equal, yet the comparison returns an
entry for them; and for the numbers `0` and `-0` themselves it returns none, so they are
equal scalars to the code. -/
theorem C2_negative_zero_differs :
    (Value.arr [.num (.int 0)]).WF = true ∧ (Value.arr [.num .negZero]).WF = true
    ∧ Same (.arr [.num (.int 0)]) (.arr [.num .negZero])
    ∧ CompareInterface "p" (.arr [.num (.int 0)]) (.arr [.num .negZero])
        = some [⟨"p", .arr [.num (.int 0)], .arr [.num .negZero]⟩]
    ∧ ¬ (∃ l, CompareInterface "p" (.arr [.num (.int 0)]) (.arr [.num .negZero]) = some l
          ∧ (l ≠ [] ↔ ¬ Same (.arr [.num (.int 0)]) (.arr [.num .negZero])))
    ∧ CompareInterface "p" (.num (.int 0)) (.num .negZero) = some [] := by
  have hs : Same (.arr [.num (.int 0)]) (.arr [.num .negZero]) :=
    SameUpTo.arr _ _ [.num (.int 0)] (List.Perm.refl _)
      (List.Forall₂.cons (by decide) List.Forall₂.nil)
  have hc : CompareInterface "p" (.arr [.num (.int 0)]) (.arr [.num .negZero])
      = some [⟨"p", .arr [.num (.int 0)], .arr [.num .negZero]⟩] := by decide
  refine ⟨by decide, by decide, hs, hc, ?_, by decide⟩
  rintro ⟨l, hl, hiff⟩
  rw [hc] at hl
  have hne : l ≠ [] := by
    intro h
    rw [h] at hl
    simp at hl
  exact hiff.1 hne hs

/-! ## The normalizer, rule by rule -/

theorem reformatMap_eq_filter_map (o : List (String × Value)) (r : Bool)
    (K : List (String × Int)) :
    ReformatMap o r K
      = (o.filter (fun e => !hasKey K e.1 && !(e.2.isNil && r))).map
          (fun e => (e.1, ReformatInterface e.2 r K)) := by
  induction o with
  | nil => rfl
  | cons e rest ih =>
    obtain ⟨k, v⟩ := e
    rw [List.filter_cons]
    by_cases hk : hasKey K k = true
    · simp only [ReformatMap, hk, if_true, ih]
      simp
    · by_cases hn : (v.isNil && r) = true
      · simp only [ReformatMap, hk, hn, if_true, Bool.false_eq_true, if_false, ih]
        simp
      · simp only [ReformatMap, hk, hn, Bool.false_eq_true, if_false, ih]
        simp

theorem reformatArrays_eq_filter_map (a : List Value) (r : Bool) (K : List (String × Int)) :
    ReformatArrays a r K
      = (a.filter (fun v => !v.isNil)).map (fun v => ReformatInterface v r K) := by
  induction a with
  | nil => rfl
  | cons v rest ih =>
    by_cases hn : v.isNil = true
    · simp [ReformatArrays, hn, ih]
    · simp only [ReformatArrays, hn, if_false, Bool.false_eq_true, ih]
      simp [hn]

theorem reformatMap_suppressed_irrelevant (r : Bool) (K : List (String × Int))
    (o1 o2 : List (String × Value))
    (h : List.Forall₂ (fun e1 e2 : String × Value =>
      e1.1 = e2.1 ∧ (hasKey K e1.1 = false → e1.2 = e2.2)) o1 o2) :
    ReformatMap o1 r K = ReformatMap o2 r K := by
  induction h with
  | nil => rfl
  | @cons e1 e2 l1 l2 he _ ih =>
    obtain ⟨k1, v1⟩ := e1
    obtain ⟨k2, v2⟩ := e2
    obtain ⟨hk, hv⟩ := he
    simp only at hk hv
    subst hk
    by_cases hs : hasKey K k1 = true
    · simp [ReformatMap, hs, ih]
    · have hv' : v1 = v2 := hv (by simpa using hs)
      subst hv'
      simp only [ReformatMap, ih]

/-- C11 (end-to-end scenario): the remote document normalizes to the document without
`secret`, the comparison with the candidate, whose tags are in the other order, returns
the empty sequence, and `doCompare` reports that empty diff. -/
theorem C11_end_to_end :
    ReformatMap
        [("name", .str "A"), ("owner", .str "u1"), ("tags", .arr [.str "x", .str "y"]),
          ("secret", .str "s")] true (buildKeymap ["secret"])
      = [("name", .str "A"), ("owner", .str "u1"), ("tags", .arr [.str "x", .str "y"])]
    ∧ CompareMap ""
        (ReformatMap
          [("name", .str "A"), ("owner", .str "u1"), ("tags", .arr [.str "x", .str "y"]),
            ("secret", .str "s")] true (buildKeymap ["secret"]))
        [("name", .str "A"), ("owner", .str "u1"), ("tags", .arr [.str "y", .str "x"])]
      = some []
    ∧ (doCompare
        ⟨false,
          some [("name", .str "A"), ("owner", .str "u1"), ("tags", .arr [.str "x", .str "y"]),
            ("secret", .str "s")],
          ["secret"],
          some [("name", .str "A"), ("owner", .str "u1"), ("tags", .arr [.str "y", .str "x"])],
          "y"⟩ .CollectionType).report = some [] := by
  decide

/-- C12 (object normalization rule): on an object with distinct keys, the normalized
object has exactly the keys that are not suppressed and whose value is not a null dropped
by `removeNil`; the value under such a key is the normalized value; and two objects that
differ only in the values under suppressed keys normalize to the same object. -/
theorem C12_object_rule (o : List (String × Value)) (r : Bool) (K : List (String × Int))
    (hnd : (o.map Prod.fst).Nodup) :
    (∀ k, hasKey (ReformatMap o r K) k = true
        ↔ hasKey o k = true ∧ hasKey K k = false ∧ ¬ ((index o k).isNil = true ∧ r = true))
    ∧ (∀ k, hasKey (ReformatMap o r K) k = true →
        index (ReformatMap o r K) k = ReformatInterface (index o k) r K)
    ∧ (∀ o2 : List (String × Value),
        List.Forall₂ (fun e1 e2 : String × Value =>
          e1.1 = e2.1 ∧ (hasKey K e1.1 = false → e1.2 = e2.2)) o o2 →
        ReformatMap o r K = ReformatMap o2 r K) := by
  have hmem : ∀ k v, (k, v) ∈ ReformatMap o r K
      ↔ ∃ e ∈ o, (hasKey K e.1 = false ∧ ¬ (e.2.isNil = true ∧ r = true))
          ∧ e.1 = k ∧ ReformatInterface e.2 r K = v := by
    intro k v
    rw [reformatMap_eq_filter_map]
    simp only [List.mem_map, List.mem_filter, Bool.and_eq_true, Bool.not_eq_true',
      Bool.and_eq_false_imp, Prod.mk.injEq]
    constructor
    · rintro ⟨e, ⟨he, hk, hn⟩, h1, h2⟩
      refine ⟨e, he, ⟨hk, ?_⟩, h1, h2⟩
      rintro ⟨hnil, hr⟩
      have := hn hnil
      simp [hr] at this
    · rintro ⟨e, he, ⟨hk, hn⟩, h1, h2⟩
      refine ⟨e, ⟨he, hk, ?_⟩, h1, h2⟩
      intro hnil
      cases hr : r with
      | false => rfl
      | true => exact absurd ⟨hnil, hr⟩ hn
  have hnd2 : ((ReformatMap o r K).map Prod.fst).Nodup := by
    rw [reformatMap_eq_filter_map, List.map_map]
    have : (Prod.fst ∘ fun e : String × Value => (e.1, ReformatInterface e.2 r K)) = Prod.fst := rfl
    rw [this]
    exact List.Nodup.sublist (List.Sublist.map _ (List.filter_sublist _)) hnd
  have hkey : ∀ k, hasKey (ReformatMap o r K) k = true
      ↔ hasKey o k = true ∧ hasKey K k = false ∧ ¬ ((index o k).isNil = true ∧ r = true) := by
    intro k
    constructor
    · intro h
      obtain ⟨e, he, ⟨hk, hn⟩, h1, _⟩ := (hmem k _).1 (index_mem_of_hasKey _ k h)
      have hidx : index o e.1 = e.2 := index_of_mem_nodup o hnd e he
      subst h1
      exact ⟨hasKey_of_mem o e he, hk, by rw [hidx]; exact hn⟩
    · rintro ⟨h1, h2, h3⟩
      have hin := index_mem_of_hasKey o k h1
      have : (k, ReformatInterface (index o k) r K) ∈ ReformatMap o r K :=
        (hmem k _).2 ⟨(k, index o k), hin, ⟨h2, h3⟩, rfl, rfl⟩
      exact hasKey_of_mem _ _ this
  refine ⟨hkey, ?_, fun o2 h => reformatMap_suppressed_irrelevant r K o o2 h⟩
  intro k hk
  obtain ⟨h1, h2, h3⟩ := (hkey k).1 hk
  have hin := index_mem_of_hasKey o k h1
  have : (k, ReformatInterface (index o k) r K) ∈ ReformatMap o r K :=
    (hmem k _).2 ⟨(k, index o k), hin, ⟨h2, h3⟩, rfl, rfl⟩
  exact index_of_mem_nodup _ hnd2 _ this

theorem C12_object_rule_witness :
    ([("a", Value.null), ("s", .num (.int 1)), ("b", .arr [.null, .num (.int 2)])].map Prod.fst).Nodup
    ∧ hasKey (ReformatMap [("a", Value.null), ("s", .num (.int 1)), ("b", .arr [.null, .num (.int 2)])] true
        [("s", 1)]) "b" = true
    ∧ index (ReformatMap [("a", Value.null), ("s", .num (.int 1)), ("b", .arr [.null, .num (.int 2)])] true
        [("s", 1)]) "b" = .arr [.num (.int 2)]
    ∧ ReformatMap [("a", Value.null), ("s", .num (.int 1)), ("b", .arr [.null, .num (.int 2)])] true [("s", 1)]
      = ReformatMap [("a", Value.null), ("s", .str "x"), ("b", .arr [.null, .num (.int 2)])] true
          [("s", 1)] :=
  ⟨by decide, by decide,
   ((C12_object_rule [("a", Value.null), ("s", .num (.int 1)), ("b", .arr [.null, .num (.int 2)])] true
      [("s", 1)] (by decide)).2.1 "b" (by decide)).trans (by decide),
   (C12_object_rule [("a", Value.null), ("s", .num (.int 1)), ("b", .arr [.null, .num (.int 2)])] true
      [("s", 1)] (by decide)).2.2
      [("a", Value.null), ("s", .str "x"), ("b", .arr [.null, .num (.int 2)])]
      (List.Forall₂.cons ⟨rfl, fun _ => rfl⟩
        (List.Forall₂.cons ⟨rfl, fun h => absurd h (by decide)⟩
          (List.Forall₂.cons ⟨rfl, fun _ => rfl⟩ List.Forall₂.nil)))⟩

/-- C13 (array null elision is unconditional): for either value of `removeNil`, the
normalized array is the list of the non-null elements, each normalized, in their order;
with `removeNil = false` the object `{"a": null, "b": [null, 1, null]}` normalizes to
`{"a": null, "b": [1]}`. -/
theorem C13_array_null_elision :
    (∀ (a : List Value) (r : Bool) (K : List (String × Int)),
      ReformatArrays a r K
        = (a.filter (fun v => !v.isNil)).map (fun v => ReformatInterface v r K))
    ∧ ReformatMap [("a", .null), ("b", .arr [.null, .num (.int 1), .null])] false []
        = [("a", .null), ("b", .arr [.num (.int 1)])] :=
  ⟨reformatArrays_eq_filter_map, by decide⟩

/-- C14 (totality): the normalizer returns a document, `CompareInterface` and `CompareMap`
return a sequence of entries and never the failure of a type assertion, and when the two
dynamic types agree an object faces an object and an array faces an array. -/
theorem C14_total (x : Value) (r : Bool) (K : List (String × Int)) (p : String)
    (old new : Value) (o n : List (String × Value)) :
    (∃ v, ReformatInterface x r K = v)
    ∧ (∃ l, CompareInterface p old new = some l)
    ∧ (∃ l, CompareMap p o n = some l)
    ∧ (TypeOf old = TypeOf new →
        (∀ s, old = .obj s → ∃ m, new = .obj m) ∧ (∀ s, old = .arr s → ∃ m, new = .arr m)) := by
  refine ⟨⟨_, rfl⟩, compareInterface_total new p old, compareMap_total p o n, ?_⟩
  intro ht
  constructor
  · rintro s rfl
    cases new <;> simp [TypeOf] at ht
    exact ⟨_, rfl⟩
  · rintro s rfl
    cases new <;> simp [TypeOf] at ht
    exact ⟨_, rfl⟩

/-! ## The replace command in compare mode -/

theorem toLower_eq_y (c : Char) : c.toLower = 'y' ↔ c = 'y' ∨ c = 'Y' := by
  constructor
  · intro h
    unfold Char.toLower at h
    simp only at h
    split at h
    · rename_i hr
      right
      have hn : c.toNat = 89 := by
        have h2 := congrArg Char.toNat h
        generalize c.toNat = n at hr h2
        obtain ⟨h65, h90⟩ := hr
        interval_cases n <;> first | rfl | (exfalso; revert h2; decide)
      rw [← Char.ofNat_toNat c, hn]
    · exact Or.inl h
  · rintro (rfl | rfl) <;> decide

theorem toLower_string_eq_y (s : String) : ToLower s = "y" ↔ s = "y" ∨ s = "Y" := by
  have hy : ("y" : String).data = ['y'] := rfl
  have hY : ("Y" : String).data = ['Y'] := rfl
  rw [String.ext_iff, String.ext_iff, String.ext_iff, hy, hY]
  simp only [ToLower, String.toList]
  cases s.data with
  | nil => simp
  | cons c t =>
    cases t with
    | nil => simp [toLower_eq_y]
    | cons d u => simp

theorem compareFetched_report (w : World) (h : (compareFetched w).report.isSome = true) :
    (compareFetched w).proceed = (ToLower w.confirm == "y")
    ∧ ∃ tmp v, w.remote = some tmp ∧ w.candidate = some v
        ∧ (compareFetched w).report
            = CompareMap "" (ReformatMap tmp true (buildKeymap w.ignoreKeys)) v := by
  cases hr : w.remote with
  | none => simp [compareFetched, hr] at h
  | some tmp =>
    cases hc : w.candidate with
    | none => simp [compareFetched, hr, hc] at h
    | some v =>
      obtain ⟨l, hl⟩ := compareMap_total "" (ReformatMap tmp true (buildKeymap w.ignoreKeys)) v
      exact ⟨by simp [compareFetched, hr, hc, hl], tmp, v, rfl, rfl,
        by simp [compareFetched, hr, hc, hl]⟩

theorem doCompare_report (w : World) (t : ResourceType)
    (h : (doCompare w t).report.isSome = true) :
    doCompare w t = compareFetched w := by
  unfold doCompare at h ⊢
  by_cases ho : w.openFails = true
  · simp [ho] at h
  · cases t <;> simp [ho] at h ⊢

/-- In compare mode, for the five resource types `doCompare` can fetch, a replace call is
made only after the diff of the normalized remote resource against the local file was
reported and the operator answered `y` or `Y`. -/
theorem replace_gated_on_supported (inputFile : String) (readerSet inputOpenFails : Bool)
    (listing : List (String × String)) (w : World) (t : ResourceType) (resourceID : String)
    (r : Replaced)
    (ht : t = .CollectionType ∨ t = .EnvironmentType ∨ t = .MockType ∨ t = .MonitorType
      ∨ t = .WorkspaceType)
    (hr : replaceResource "compare" inputFile readerSet inputOpenFails listing w t resourceID
      = some r)
    (h : r.replaced = true) :
    (w.confirm = "y" ∨ w.confirm = "Y")
    ∧ ∃ tmp v dff, w.remote = some tmp ∧ w.candidate = some v
        ∧ CompareMap "" (ReformatMap tmp true (buildKeymap w.ignoreKeys)) v = some dff
        ∧ (doCompare w t).report = some dff := by
  have hd : doCompare w t = if w.openFails then ⟨false, none⟩ else compareFetched w := by
    unfold doCompare
    rcases ht with rfl | rfl | rfl | rfl | rfl <;> rfl
  have hm : prepareMap t [] listing = some listing := by
    rcases ht with rfl | rfl | rfl | rfl | rfl <;> rfl
  have hp : (doCompare w t).proceed = true := by
    unfold replaceResource at hr
    have hne : ¬ ("compare" = "force") := by decide
    by_cases h1 : (!readerSet && inputOpenFails) = true
    · simp only [h1, if_true, Option.some.injEq] at hr
      rw [← hr] at h
      simp at h
    · by_cases h2 : inputFile.length = 0
      · simp [h1, hm, hne, h2] at hr
        rw [← hr] at h
        simp at h
      · by_cases h3 : (doCompare w t).proceed = true
        · exact h3
        · simp [h1, hm, hne, h2, h3] at hr
          rw [← hr] at h
          simp at h
  rw [hd] at hp ⊢
  by_cases ho : w.openFails = true
  · simp [ho] at hp
  · simp only [ho, Bool.false_eq_true, if_false] at hp ⊢
    unfold compareFetched at hp ⊢
    cases hr : w.remote with
    | none => simp [hr] at hp
    | some tmp =>
      cases hc : w.candidate with
      | none => simp [hr, hc] at hp
      | some v =>
        obtain ⟨l, hl⟩ :=
          compareMap_total "" (ReformatMap tmp true (buildKeymap w.ignoreKeys)) v
        simp only [hr, hc, hl, beq_iff_eq] at hp ⊢
        exact ⟨(toLower_string_eq_y _).1 hp, tmp, v, l, rfl, rfl, hl, rfl⟩

/-- C15 (evaluation at the failing inputs): in compare mode with a file name given, for
`api` and `schema` the run of `doCompare` returns true without any diff report, whatever
the environment answers and whatever the operator types, and the replace call is made.
For `api-version` the run ends in the panic of `prepareMap` before the mode is looked at,
in either mode, so no replace call is made there. -/
theorem C15_unsupported_types_bypass_compare (remote candidate : Option (List (String × Value)))
    (keys : List String) (confirm : String) (listing : List (String × String))
    (resourceID mode inputFile : String) (w : World) :
    replaceResource "compare" "f.json" false false listing
        ⟨false, remote, keys, candidate, confirm⟩ .APIType resourceID
      = some ⟨true, some ⟨true, none⟩, (listing.lookup resourceID).getD resourceID⟩
    ∧ replaceResource "compare" "f.json" false false listing
        ⟨false, remote, keys, candidate, confirm⟩ .SchemaType resourceID
      = some ⟨true, some ⟨true, none⟩, resourceID⟩
    ∧ replaceResource mode inputFile false false listing w .APIVersionType resourceID = none := by
  refine ⟨?_, ?_, ?_⟩
  · simp [replaceResource, prepareMap, doCompare]
    decide
  · simp [replaceResource, prepareMap, doCompare]
    decide
  · simp [replaceResource, prepareMap]

/-- C16 (confirmation convention): once `doCompare` has produced the diff report, it lets
the replace proceed exactly when `confirm` is `"y"` or `"Y"`. -/
theorem C16_confirmation (w : World) (t : ResourceType)
    (h : (doCompare w t).report.isSome = true) :
    (doCompare w t).proceed = true ↔ (w.confirm = "y" ∨ w.confirm = "Y") := by
  have hd := doCompare_report w t h
  rw [hd] at h ⊢
  rw [(compareFetched_report w h).1, beq_iff_eq]
  exact toLower_string_eq_y _

theorem C16_confirmation_witness :
    (doCompare ⟨false, some [("a", .num (.int 1))], [], some [("a", .num (.int 2))], "Y"⟩
        .MonitorType).report.isSome = true
    ∧ (doCompare ⟨false, some [("a", .num (.int 1))], [], some [("a", .num (.int 2))], "yes"⟩
        .MonitorType).report.isSome = true
    ∧ (doCompare ⟨false, some [("a", .num (.int 1))], [], some [("a", .num (.int 2))], ""⟩
        .MonitorType).report.isSome = true
    ∧ (doCompare ⟨false, some [("a", .num (.int 1))], [], some [("a", .num (.int 2))], "Y"⟩
        .MonitorType).proceed = true
    ∧ ¬ (doCompare ⟨false, some [("a", .num (.int 1))], [], some [("a", .num (.int 2))], "yes"⟩
        .MonitorType).proceed = true
    ∧ ¬ (doCompare ⟨false, some [("a", .num (.int 1))], [], some [("a", .num (.int 2))], ""⟩
        .MonitorType).proceed = true :=
  ⟨by decide, by decide, by decide,
   (C16_confirmation ⟨false, some [("a", .num (.int 1))], [], some [("a", .num (.int 2))], "Y"⟩
      .MonitorType (by decide)).2 (Or.inr rfl),
   fun hp => by
     have := (C16_confirmation ⟨false, some [("a", .num (.int 1))], [], some [("a", .num (.int 2))], "yes"⟩
       .MonitorType (by decide)).1 hp
     revert this
     decide,
   fun hp => by
     have := (C16_confirmation ⟨false, some [("a", .num (.int 1))], [], some [("a", .num (.int 2))], ""⟩
       .MonitorType (by decide)).1 hp
     revert this
     decide⟩

/-! ## The two side lists of the array comparison -/

theorem compareArray_eq (p : String) (old new : List Value) :
    CompareArrayInterface p old new
      = if (diffnew old new).length + (diffold old new).length > 0
        then [⟨p, .arr (diffold old new), .arr (diffnew old new)⟩] else [] := rfl

theorem count_matchNew (old new : List Value) (k : String) :
    count (matchNew (countKeys old) new).1 k
      = (old.map Marshal).count k - (new.map Marshal).count k := by
  unfold matchNew
  rw [matchNew_step_count, count_countKeys]

theorem mem_restOld_step (m : List (String × Nat)) (v : Value) :
    ∀ (old d : List Value),
      v ∈ old.foldl (fun diffold w =>
          if count m (Marshal w) > 0 then diffold ++ List.replicate (count m (Marshal w)) w
          else diffold) d
        ↔ v ∈ d ∨ (v ∈ old ∧ 0 < count m (Marshal v))
  | [], d => by simp
  | w :: rest, d => by
      simp only [List.foldl_cons]
      rw [mem_restOld_step m v rest]
      by_cases hpos : 0 < count m (Marshal w)
      · simp only [gt_iff_lt, hpos, if_true, List.mem_append, List.mem_replicate,
          List.mem_cons]
        constructor
        · rintro ((h | ⟨_, rfl⟩) | ⟨h1, h2⟩)
          · exact Or.inl h
          · exact Or.inr ⟨Or.inl rfl, hpos⟩
          · exact Or.inr ⟨Or.inr h1, h2⟩
        · rintro (h | ⟨rfl | h1, h2⟩)
          · exact Or.inl (Or.inl h)
          · exact Or.inl (Or.inr ⟨by omega, rfl⟩)
          · exact Or.inr ⟨h1, h2⟩
      · simp only [gt_iff_lt, hpos, if_false, List.mem_cons]
        constructor
        · rintro (h | ⟨h1, h2⟩)
          · exact Or.inl h
          · exact Or.inr ⟨Or.inr h1, h2⟩
        · rintro (h | ⟨rfl | h1, h2⟩)
          · exact Or.inl h
          · exact absurd h2 hpos
          · exact Or.inr ⟨h1, h2⟩

theorem filter_key_length (l : List Value) (v : Value) :
    (l.filter (fun w => Marshal w == Marshal v)).length = (l.map Marshal).count (Marshal v) := by
  induction l with
  | nil => rfl
  | cons w rest ih =>
    rw [List.map_cons, count_cons_key, List.filter_cons]
    by_cases hd : Marshal w = Marshal v
    · have hb : (Marshal w == Marshal v) = true := by rw [hd]; simp
      have hm : (if Marshal v = Marshal w then 1 else 0) = 1 := if_pos hd.symm
      rw [hm]
      simp only [hb, if_true, List.length_cons, ih]
    · have hb : (Marshal w == Marshal v) = false := by
        simp only [beq_eq_false_iff_ne, ne_eq]
        exact hd
      have hm : (if Marshal v = Marshal w then 1 else 0) = 0 := if_neg (fun h => hd h.symm)
      rw [hm]
      simp only [hb, Bool.false_eq_true, if_false, ih, Nat.add_zero]

theorem filter_deepEqual_eq (l : List Value) (v : Value)
    (hl : ∀ w ∈ l, w.WF = true ∧ w.noNegZero = true) (hv : v.WF = true ∧ v.noNegZero = true) :
    l.filter (fun w => DeepEqual w v) = l.filter (fun w => Marshal w == Marshal v) := by
  apply List.filter_congr
  intro w hw
  rw [Bool.eq_iff_iff, beq_iff_eq]
  exact (marshal_eq_iff w v (hl w hw).1 hv.1 (hl w hw).2 hv.2).symm

/-- On well-formed elements without a negative zero the walk of the spec, which matches by
structural equality, is the walk that matches by canonical encoding. -/
theorem newMinusOld_eq_keyed (old : List Value)
    (ho : ∀ v ∈ old, v.WF = true ∧ v.noNegZero = true) :
    ∀ (new seen : List Value), (∀ v ∈ new, v.WF = true ∧ v.noNegZero = true) →
      (∀ v ∈ seen, v.WF = true ∧ v.noNegZero = true) →
      newMinusOld old seen new = newMinusOldKeyed old seen new
  | [], seen, _, _ => by simp [newMinusOld, newMinusOldKeyed]
  | v :: rest, seen, hn, hs => by
      have hv := hn v (List.mem_cons_self _ _)
      have hrest : ∀ w ∈ rest, w.WF = true ∧ w.noNegZero = true :=
        fun w hw => hn w (List.mem_cons_of_mem _ hw)
      have hseen : ∀ w ∈ seen ++ [v], w.WF = true ∧ w.noNegZero = true := by
        intro w hw
        rcases List.mem_append.1 hw with h | h
        · exact hs w h
        · rw [List.mem_singleton.1 h]; exact hv
      simp only [newMinusOld, newMinusOldKeyed]
      rw [filter_deepEqual_eq seen v hs hv, filter_deepEqual_eq old v ho hv,
        newMinusOld_eq_keyed old ho rest (seen ++ [v]) hrest hseen]

theorem matchNew_step_spec (old : List Value) :
    ∀ (new seen : List Value) (s : List (String × Nat) × List Value),
      (∀ k, count s.1 k = (old.map Marshal).count k - (seen.map Marshal).count k) →
      (new.foldl (fun s v =>
        if count s.1 (Marshal v) > 0 && hasKey s.1 (Marshal v)
        then (setKey s.1 (Marshal v) (count s.1 (Marshal v) - 1), s.2)
        else (s.1, s.2 ++ [v])) s).2 = s.2 ++ newMinusOldKeyed old seen new
  | [], seen, s, _ => by simp [newMinusOldKeyed]
  | v :: rest, seen, s, hinv => by
      have hcs : ∀ k, ((seen ++ [v]).map Marshal).count k
          = (seen.map Marshal).count k + if k = Marshal v then 1 else 0 := by
        intro k
        rw [List.map_append, List.count_append, List.map_singleton]
        by_cases hk : k = Marshal v
        · subst hk; simp
        · have hb : (Marshal v == k) = false := by
            simp only [beq_eq_false_iff_ne, ne_eq]
            exact fun h => hk h.symm
          simp [hk, List.count_cons, hb]
      simp only [List.foldl_cons, newMinusOldKeyed]
      rw [filter_key_length seen v, filter_key_length old v]
      by_cases hpos : 0 < count s.1 (Marshal v)
      · have hk := hasKey_of_count_pos _ _ hpos
        have hlt : (seen.map Marshal).count (Marshal v) < (old.map Marshal).count (Marshal v) := by
          have := hinv (Marshal v); omega
        simp only [gt_iff_lt, hpos, decide_True, hk, Bool.and_self, if_true, hlt]
        rw [matchNew_step_spec old rest (seen ++ [v]) _]
        intro k
        rw [count_setKey, hcs k]
        have := hinv k
        by_cases hkv : k = Marshal v
        · subst hkv; simp; omega
        · simp [hkv]; omega
      · have hlt : ¬ (seen.map Marshal).count (Marshal v) < (old.map Marshal).count (Marshal v) := by
          have := hinv (Marshal v); omega
        simp only [gt_iff_lt, hpos, decide_False, Bool.false_and, Bool.false_eq_true, if_false,
          hlt]
        rw [matchNew_step_spec old rest (seen ++ [v]) _]
        · simp
        · intro k
          rw [hcs k]
          have := hinv k
          by_cases hkv : k = Marshal v
          · subst hkv; simp; omega
          · simp [hkv]; omega

theorem count_diffnew_step (k : String) :
    ∀ (new : List Value) (s : List (String × Nat) × List Value),
      ((new.foldl (fun s v =>
        if count s.1 (Marshal v) > 0 && hasKey s.1 (Marshal v)
        then (setKey s.1 (Marshal v) (count s.1 (Marshal v) - 1), s.2)
        else (s.1, s.2 ++ [v])) s).2.map Marshal).count k
      = (s.2.map Marshal).count k + ((new.map Marshal).count k - count s.1 k)
  | [], s => by simp
  | v :: rest, s => by
      simp only [List.foldl_cons, List.map_cons]
      rw [count_diffnew_step k rest, count_cons_key]
      by_cases hpos : 0 < count s.1 (Marshal v)
      · have hk := hasKey_of_count_pos _ _ hpos
        simp only [gt_iff_lt, hpos, decide_True, hk, Bool.and_self, if_true]
        rw [count_setKey]
        by_cases hkv : k = Marshal v
        · subst hkv; simp; omega
        · simp [hkv]
      · simp only [gt_iff_lt, hpos, decide_False, Bool.false_and, Bool.false_eq_true, if_false]
        rw [List.map_append, List.count_append, List.map_singleton]
        by_cases hkv : k = Marshal v
        · subst hkv; simp; omega
        · have hb : (Marshal v == k) = false := by
            simp only [beq_eq_false_iff_ne, ne_eq]
            exact fun h => hkv h.symm
          simp [hkv, List.count_cons, hb]

/-- C17 (one entry or none): the array comparison returns no entry when both side lists are
empty and otherwise exactly one entry, at the path itself, carrying the old-only and the
new-only list. -/
theorem C17_array_entry (p : String) (old new : List Value) :
    (CompareArrayInterface p old new = []
      ∨ CompareArrayInterface p old new = [⟨p, .arr (diffold old new), .arr (diffnew old new)⟩])
    ∧ (CompareArrayInterface p old new = [⟨p, .arr (diffold old new), .arr (diffnew old new)⟩]
        ↔ (diffold old new ≠ [] ∨ diffnew old new ≠ []))
    ∧ (CompareArrayInterface p old new = [] ↔ (diffold old new = [] ∧ diffnew old new = []))
    ∧ (⟨p, .arr [], .arr []⟩ : diff) ∉ CompareArrayInterface p old new := by
  rw [compareArray_eq]
  by_cases h : 0 < (diffnew old new).length + (diffold old new).length
  · have hne : diffold old new ≠ [] ∨ diffnew old new ≠ [] := by
      by_contra hcon
      push_neg at hcon
      rw [hcon.1, hcon.2] at h
      simp at h
    simp only [gt_iff_lt, h, if_true, List.mem_singleton]
    refine ⟨Or.inr trivial, ⟨fun _ => hne, fun _ => trivial⟩, ?_, ?_⟩
    · constructor
      · intro h1; simp at h1
      · rintro ⟨h1, h2⟩
        rcases hne with h3 | h3
        · exact absurd h1 h3
        · exact absurd h2 h3
    · intro heq
      simp only [diff.mk.injEq, Value.arr.injEq, true_and] at heq
      rcases hne with h3 | h3
      · exact h3 heq.1.symm
      · exact h3 heq.2.symm
  · have h0 : diffold old new = [] ∧ diffnew old new = [] := by
      have : (diffnew old new).length = 0 ∧ (diffold old new).length = 0 := by omega
      exact ⟨List.length_eq_zero.1 this.2, List.length_eq_zero.1 this.1⟩
    simp only [gt_iff_lt, h, if_false, List.not_mem_nil, not_false_eq_true, and_true]
    refine ⟨Or.inl trivial, ⟨fun h1 => by simp at h1, fun h1 => ?_⟩, ⟨fun _ => h0, fun _ => trivial⟩⟩
    rcases h1 with h3 | h3
    · exact absurd h0.1 h3
    · exact absurd h0.2 h3

/-- C18 (the new-only list): the new-only list is the list the spec describes, an element
of `new` being kept from the moment as many elements with its canonical encoding have been
seen in `new` as occur in `old`; counted by canonical key it is the multiset difference
`new` minus `old`; on well-formed elements without a negative zero, having the same
canonical encoding is being structurally equal; and `old = [1,2]`, `new = [1,2,2]` gives
`[2]`. -/
theorem C18_new_only (old new : List Value) :
    diffnew old new = newMinusOldKeyed old [] new
    ∧ (∀ k, ((diffnew old new).map Marshal).count k
        = (new.map Marshal).count k - (old.map Marshal).count k)
    ∧ ((∀ v ∈ old, v.WF = true ∧ v.noNegZero = true) →
        (∀ v ∈ new, v.WF = true ∧ v.noNegZero = true) →
        diffnew old new = newMinusOld old [] new)
    ∧ diffnew [.num (.int 1), .num (.int 2)] [.num (.int 1), .num (.int 2), .num (.int 2)]
        = [.num (.int 2)] := by
  have h1 : diffnew old new = newMinusOldKeyed old [] new := by
    unfold diffnew matchNew
    rw [matchNew_step_spec old new [] (countKeys old, []) (fun k => by simp [count_countKeys])]
    simp
  refine ⟨h1, ?_, ?_, by decide⟩
  · intro k
    unfold diffnew matchNew
    rw [count_diffnew_step, count_countKeys]
    simp
  · intro ho hn
    rw [h1, newMinusOld_eq_keyed old ho new [] hn (by simp)]

theorem C18_new_only_witness :
    (∀ v ∈ [Value.str "a", .num (.int 2)], v.WF = true ∧ v.noNegZero = true)
    ∧ (∀ v ∈ [Value.num (.int 2), .str "a", .num (.int 2), .null],
        v.WF = true ∧ v.noNegZero = true)
    ∧ diffnew [.str "a", .num (.int 2)] [.num (.int 2), .str "a", .num (.int 2), .null]
        = [.num (.int 2), .null]
    ∧ newMinusOld [.str "a", .num (.int 2)] [] [.num (.int 2), .str "a", .num (.int 2), .null]
        = [.num (.int 2), .null] :=
  ⟨by decide, by decide,
   ((C18_new_only [.str "a", .num (.int 2)]
      [.num (.int 2), .str "a", .num (.int 2), .null]).2.2.1 (by decide) (by decide)).trans
     (by decide),
   by decide⟩

/-- C18 (structural equality fails at the negative zero): with `old = [0]` and `new = [-0]` the one
element of `new` is structurally equal to the element of `old`, so the walk of the spec
matches it and keeps nothing, while the code keeps it in the new-only list. -/
theorem C18_negative_zero_kept :
    DeepEqual (.num (.int 0)) (.num .negZero) = true
    ∧ newMinusOld [.num (.int 0)] [] [.num .negZero] = []
    ∧ diffnew [.num (.int 0)] [.num .negZero] = [.num .negZero]
    ∧ diffnew [.num (.int 0)] [.num .negZero] ≠ newMinusOld [.num (.int 0)] [] [.num .negZero] := by
  refine ⟨by decide, by decide, by decide, by decide⟩

/-- C19 (the old-only list): a value occurs in the old-only list exactly when it is an
element of `old` whose canonical key occurs strictly more often in `old` than in `new`, so
the list is empty exactly when no element of `old` is in surplus. -/
theorem C19_old_only (old new : List Value) :
    (∀ v, v ∈ diffold old new
        ↔ v ∈ old ∧ (new.map Marshal).count (Marshal v) < (old.map Marshal).count (Marshal v))
    ∧ (∀ k, k ∈ (diffold old new).map Marshal
        ↔ (new.map Marshal).count k < (old.map Marshal).count k)
    ∧ (diffold old new = []
        ↔ ∀ v ∈ old, (old.map Marshal).count (Marshal v) ≤ (new.map Marshal).count (Marshal v)) := by
  have h1 : ∀ v, v ∈ diffold old new
      ↔ v ∈ old ∧ (new.map Marshal).count (Marshal v) < (old.map Marshal).count (Marshal v) := by
    intro v
    unfold diffold restOld
    rw [mem_restOld_step, count_matchNew]
    simp only [List.not_mem_nil, false_or]
    constructor
    · rintro ⟨h, hc⟩; exact ⟨h, by omega⟩
    · rintro ⟨h, hc⟩; exact ⟨h, by omega⟩
  refine ⟨h1, ?_, ?_⟩
  · intro k
    simp only [List.mem_map, h1]
    constructor
    · rintro ⟨v, ⟨_, hc⟩, rfl⟩
      exact hc
    · intro hc
      have hk : k ∈ old.map Marshal := by
        by_contra hcon
        rw [List.count_eq_zero_of_not_mem hcon] at hc
        omega
      obtain ⟨v, hv, rfl⟩ := List.mem_map.1 hk
      exact ⟨v, ⟨hv, hc⟩, rfl⟩
  · rw [List.eq_nil_iff_forall_not_mem]
    constructor
    · intro h v hv
      have := h v
      rw [h1] at this
      by_contra hcon
      exact this ⟨hv, by omega⟩
    · intro h v hv
      rw [h1] at hv
      have := h v hv.1
      omega

/-- C20 (no multiset semantics inside array elements): an array nested directly in an
array is matched whole, so `[[1,2]]` against `[[2,1]]` yields one entry carrying both
elements, whereas the same arrays under an object key yield none; two object elements that
differ in one field are reported whole; and in general two well-formed elements that are
not deeply equal are reported as one entry at the path of the array. -/
theorem C20_elements_matched_whole :
    CompareArrayInterface "p" [.arr [.num (.int 1), .num (.int 2)]] [.arr [.num (.int 2), .num (.int 1)]]
      = [⟨"p", .arr [.arr [.num (.int 1), .num (.int 2)]], .arr [.arr [.num (.int 2), .num (.int 1)]]⟩]
    ∧ CompareInterface "p" (.obj [("a", .arr [.num (.int 1), .num (.int 2)])])
        (.obj [("a", .arr [.num (.int 2), .num (.int 1)])]) = some []
    ∧ CompareArrayInterface "p" [.obj [("a", .num (.int 1)), ("b", .num (.int 2))]]
        [.obj [("a", .num (.int 1)), ("b", .num (.int 3))]]
      = [⟨"p", .arr [.obj [("a", .num (.int 1)), ("b", .num (.int 2))]],
          .arr [.obj [("a", .num (.int 1)), ("b", .num (.int 3))]]⟩]
    ∧ ∀ (p : String) (x y : Value), x.WF = true → y.WF = true → DeepEqual x y = false →
        CompareArrayInterface p [x] [y] = [⟨p, .arr [x], .arr [y]⟩] := by
  refine ⟨by decide, by decide, by decide, ?_⟩
  intro p x y hx hy hd
  have hne : ¬ Marshal y = Marshal x := by
    intro h
    have := deepEqual_of_marshal_eq x y hx hy h.symm
    rw [hd] at this
    exact absurd this (by decide)
  have hb : (Marshal y == Marshal x) = false := by simpa using hne
  simp [CompareArrayInterface, countKeys, matchNew, restOld, count, setKey, hasKey,
    List.lookup, hb]

theorem C20_elements_matched_whole_witness :
    (Value.arr [.str "a", .str "b"]).WF = true ∧ (Value.arr [.str "b", .str "a"]).WF = true
    ∧ DeepEqual (.arr [.str "a", .str "b"]) (.arr [.str "b", .str "a"]) = false
    ∧ CompareArrayInterface "q" [.arr [.str "a", .str "b"]] [.arr [.str "b", .str "a"]]
        = [⟨"q", .arr [.arr [.str "a", .str "b"]], .arr [.arr [.str "b", .str "a"]]⟩] :=
  ⟨by decide, by decide, by decide,
   C20_elements_matched_whole.2.2.2 "q" _ _ (by decide) (by decide) (by decide)⟩

/-! ## Suppressed keys do not reach the diff -/

theorem AgreeOff.isNil_eq {K : List (String × Int)} {v1 v2 : Value} (h : AgreeOff K v1 v2) :
    v1.isNil = v2.isNil := by
  cases h <;> rfl

mutual
theorem reformatInterface_agree (K : List (String × Int)) (r : Bool) :
    ∀ {v1 v2 : Value}, AgreeOff K v1 v2 → ReformatInterface v1 r K = ReformatInterface v2 r K
  | _, _, .null => rfl
  | _, _, .bool _ => rfl
  | _, _, .num _ => rfl
  | _, _, .str _ => rfl
  | _, _, .obj h => by
      simp only [ReformatInterface, reformatMap_agree K r h]
  | _, _, .arr h => by
      simp only [ReformatInterface, reformatArrays_agree K r h]
theorem reformatMap_agree (K : List (String × Int)) (r : Bool) :
    ∀ {m1 m2 : List (String × Value)}, AgreeMembers K m1 m2 →
      ReformatMap m1 r K = ReformatMap m2 r K
  | _, _, .nil => rfl
  | _, _, .skipLeft hk h => by
      simp only [ReformatMap, hk, if_true]
      exact reformatMap_agree K r h
  | _, _, .skipRight hk h => by
      simp only [ReformatMap, hk, if_true]
      exact reformatMap_agree K r h
  | _, _, @AgreeMembers.keep _ k v1 v2 m1 m2 hv h => by
      have ih := reformatMap_agree K r h
      have ihv := reformatInterface_agree K r hv
      have hn := hv.isNil_eq
      simp only [ReformatMap, hn, ih, ihv]
theorem reformatArrays_agree (K : List (String × Int)) (r : Bool) :
    ∀ {a1 a2 : List Value}, AgreeElems K a1 a2 → ReformatArrays a1 r K = ReformatArrays a2 r K
  | _, _, .nil => rfl
  | _, _, .cons hv h => by
      have ih := reformatArrays_agree K r h
      have ihv := reformatInterface_agree K r hv
      have hn := hv.isNil_eq
      simp only [ReformatArrays, hn, ih, ihv]
end

/-- C22 (suppressed keys of the remote cannot influence the diff): two remote documents
that differ only in the presence or the values of keys of `K`, at any depth, normalize to
the same document, for either flag, and so compare alike with every candidate. -/
theorem C22_suppressed_keys_no_influence (K : List (String × Int)) (flag : Bool) (p : String)
    (r1 r2 c : List (String × Value)) (h : AgreeMembers K r1 r2) :
    ReformatMap r1 flag K = ReformatMap r2 flag K
    ∧ CompareMap p (ReformatMap r1 flag K) c = CompareMap p (ReformatMap r2 flag K) c := by
  have h1 := reformatMap_agree K flag h
  exact ⟨h1, by rw [h1]⟩

theorem C22_suppressed_keys_no_influence_witness :
    AgreeMembers [("secret", 1)]
        [("name", .str "A"), ("secret", .str "s"),
          ("sub", .arr [.obj [("secret", .num (.int 1)), ("x", .null)]])]
        [("name", .str "A"), ("sub", .arr [.obj [("x", .null), ("secret", .arr [])]])]
    ∧ ReformatMap
        [("name", .str "A"), ("secret", .str "s"),
          ("sub", .arr [.obj [("secret", .num (.int 1)), ("x", .null)]])] false [("secret", 1)]
      = ReformatMap
        [("name", .str "A"), ("sub", .arr [.obj [("x", .null), ("secret", .arr [])]])]
        false [("secret", 1)]
    ∧ CompareMap "" (ReformatMap
        [("name", .str "A"), ("secret", .str "s"),
          ("sub", .arr [.obj [("secret", .num (.int 1)), ("x", .null)]])] false [("secret", 1)])
        [("name", .str "B")]
      = CompareMap "" (ReformatMap
        [("name", .str "A"), ("sub", .arr [.obj [("x", .null), ("secret", .arr [])]])]
        false [("secret", 1)]) [("name", .str "B")] :=
  have hagree : AgreeMembers [("secret", 1)]
      [("name", .str "A"), ("secret", .str "s"),
        ("sub", .arr [.obj [("secret", .num (.int 1)), ("x", .null)]])]
      [("name", .str "A"), ("sub", .arr [.obj [("x", .null), ("secret", .arr [])]])] :=
    .keep (.str "A")
      (.skipLeft (by decide)
        (.keep
          (.arr (.cons
            (.obj (.skipLeft (by decide)
              (.keep .null (.skipRight (by decide) .nil))))
            .nil))
          .nil))
  ⟨hagree,
   (C22_suppressed_keys_no_influence [("secret", 1)] false "" _ _ [("name", .str "B")] hagree).1,
   (C22_suppressed_keys_no_influence [("secret", 1)] false "" _ _ [("name", .str "B")] hagree).2⟩

/-! ## Keys that only the candidate holds -/

theorem compareMapNew_mem_newOnly (p : String) (old : List (String × Value)) (k : String)
    (hold : hasKey old k = false) :
    ∀ (new : List (String × Value)) (l : List diff), CompareMapNew p old new = some l →
      hasKey new k = true → (⟨p ++ "." ++ k, Value.null, index old k⟩ : diff) ∈ l
  | [], l, _, hk => by simp [hasKey, List.lookup] at hk
  | (k2, v2) :: rest, l, h, hk => by
      obtain ⟨l2, hl2⟩ := compareMapNew_total rest p old
      obtain ⟨d, hd⟩ := compareInterface_total v2 (p ++ "." ++ k2) (index old k2)
      by_cases hkk : k = k2
      · subst hkk
        simp [CompareMapNew, hold, hl2] at h
        subst h
        exact List.mem_cons_self _ _
      · have hrest : hasKey rest k = true := by
          have hb : (k == k2) = false := by simpa using hkk
          simpa [hasKey, List.lookup, hb] using hk
        have ih := compareMapNew_mem_newOnly p old k hold rest l2 hl2 hrest
        by_cases ho : hasKey old k2 = true
        · simp [CompareMapNew, ho, hl2, hd] at h
          subst h
          exact List.mem_append_right _ ih
        · simp [CompareMapNew, ho, hl2] at h
          subst h
          exact List.mem_cons_of_mem _ ih

theorem hasKey_reformatMap_false (o : List (String × Value)) (K : List (String × Int))
    (k : String) (hnd : (o.map Prod.fst).Nodup)
    (h : hasKey K k = true ∨ hasKey o k = false ∨ (index o k).isNil = true) :
    hasKey (ReformatMap o true K) k = false := by
  rw [Bool.eq_false_iff]
  intro hk
  have hmem := index_mem_of_hasKey _ k hk
  rw [reformatMap_eq_filter_map] at hmem
  obtain ⟨e, he, heq⟩ := List.mem_map.1 hmem
  simp only [List.mem_filter, Bool.and_eq_true, Bool.not_eq_true', Bool.and_true] at he
  simp only [Prod.mk.injEq] at heq
  obtain ⟨hin, hK, hnil⟩ := he
  obtain ⟨hek, _⟩ := heq
  have hidx : index o e.1 = e.2 := index_of_mem_nodup o hnd e hin
  have hhas : hasKey o e.1 = true := hasKey_of_mem o e hin
  rw [hek] at hK hidx hhas
  rcases h with h | h | h
  · rw [h] at hK; exact absurd hK (by decide)
  · rw [h] at hhas; exact absurd hhas (by decide)
  · rw [hidx] at h
    rw [h] at hnil
    exact absurd hnil (by decide)

/-- C21 (only the remote is normalized): for the resource types `doCompare` fetches, the
report is `CompareMap("", ReformatMap(remote, true, K), candidate)`, the candidate taken as
read; so when the candidate has a top-level key that is suppressed, or whose value is
null while the remote lacks the key or holds it as null, the report has an entry at the
path `"." + k` and is not empty. -/
theorem C21_candidate_not_normalized (t : ResourceType) (r c : List (String × Value))
    (keys : List String) (confirm : String) (k : String)
    (ht : t = .CollectionType ∨ t = .EnvironmentType ∨ t = .MockType ∨ t = .MonitorType
      ∨ t = .WorkspaceType)
    (hnd : (r.map Prod.fst).Nodup) (hk : hasKey c k = true)
    (hcase : hasKey (buildKeymap keys) k = true
      ∨ ((index c k).isNil = true ∧ (hasKey r k = false ∨ (index r k).isNil = true))) :
    (doCompare ⟨false, some r, keys, some c, confirm⟩ t).report
      = CompareMap "" (ReformatMap r true (buildKeymap keys)) c
    ∧ ∃ l, CompareMap "" (ReformatMap r true (buildKeymap keys)) c = some l
        ∧ (∃ e ∈ l, e.Path = "." ++ k) ∧ l ≠ [] := by
  obtain ⟨l2, hl2⟩ := compareMapNew_total c "" (ReformatMap r true (buildKeymap keys))
  have hl : CompareMap "" (ReformatMap r true (buildKeymap keys)) c
      = some (oldOnly "" (ReformatMap r true (buildKeymap keys)) c ++ l2) := by
    simp [CompareMap, hl2]
  have habs : hasKey (ReformatMap r true (buildKeymap keys)) k = false := by
    apply hasKey_reformatMap_false r _ k hnd
    rcases hcase with h | ⟨_, h | h⟩
    · exact Or.inl h
    · exact Or.inr (Or.inl h)
    · exact Or.inr (Or.inr h)
  have hmem := compareMapNew_mem_newOnly "" _ k habs c l2 hl2 hk
  have hrep : (doCompare ⟨false, some r, keys, some c, confirm⟩ t).report
      = CompareMap "" (ReformatMap r true (buildKeymap keys)) c := by
    have hd : doCompare ⟨false, some r, keys, some c, confirm⟩ t
        = compareFetched ⟨false, some r, keys, some c, confirm⟩ := by
      rcases ht with rfl | rfl | rfl | rfl | rfl <;> rfl
    rw [hd, hl]
    simp [compareFetched, hl]
  refine ⟨hrep, _, hl, ⟨_, List.mem_append_right _ hmem, ?_⟩, ?_⟩
  · simp
  · intro hnil
    have := List.mem_append_right (oldOnly "" (ReformatMap r true (buildKeymap keys)) c) hmem
    rw [hnil] at this
    simp at this

theorem C21_candidate_not_normalized_witness :
    ([("name", Value.str "A"), ("note", .null)].map Prod.fst).Nodup
    ∧ hasKey [("name", Value.str "A"), ("note", .null)] "note" = true
    ∧ (doCompare ⟨false, some [("name", .str "A"), ("note", .null)], ["secret"],
        some [("name", .str "A"), ("note", .null)], "y"⟩ .WorkspaceType).report
      = CompareMap "" (ReformatMap [("name", .str "A"), ("note", .null)] true
          (buildKeymap ["secret"])) [("name", .str "A"), ("note", .null)]
    ∧ ∃ l, CompareMap "" (ReformatMap [("name", .str "A"), ("note", .null)] true
          (buildKeymap ["secret"])) [("name", .str "A"), ("note", .null)] = some l
        ∧ (∃ e ∈ l, e.Path = "." ++ "note") ∧ l ≠ [] :=
  ⟨by decide, by decide,
   C21_candidate_not_normalized .WorkspaceType [("name", .str "A"), ("note", .null)]
     [("name", .str "A"), ("note", .null)] ["secret"] "y" "note"
     (Or.inr (Or.inr (Or.inr (Or.inr rfl)))) (by decide) (by decide)
     (Or.inr ⟨by decide, Or.inr (by decide)⟩)⟩

/-! ## The shape of the paths -/

theorem allKeys_index_subset (m : List (String × Value)) (k : String) :
    ∀ x ∈ (index m k).allKeys, x ∈ Value.allKeysMembers m := by
  induction m with
  | nil => simp [index, List.lookup, Value.allKeys]
  | cons e rest ih =>
    obtain ⟨k2, v2⟩ := e
    intro x hx
    by_cases hk : k = k2
    · subst hk
      simp only [index, List.lookup, beq_self_eq_true, Option.getD_some] at hx
      simp only [Value.allKeysMembers, List.mem_cons, List.mem_append]
      exact Or.inr (Or.inl hx)
    · have hb : (k == k2) = false := by simpa using hk
      simp only [index, List.lookup, hb] at hx
      simp only [Value.allKeysMembers, List.mem_cons, List.mem_append]
      exact Or.inr (Or.inr (ih x hx))

theorem key_mem_allKeysMembers (m : List (String × Value)) (e : String × Value) (he : e ∈ m) :
    e.1 ∈ Value.allKeysMembers m := by
  induction m with
  | nil => simp at he
  | cons e2 rest ih =>
    obtain ⟨k2, v2⟩ := e2
    simp only [Value.allKeysMembers, List.mem_cons, List.mem_append]
    rcases List.mem_cons.1 he with h | h
    · exact Or.inl (by rw [h])
    · exact Or.inr (Or.inr (ih h))

theorem allKeys_value_subset (m : List (String × Value)) (e : String × Value) (he : e ∈ m) :
    ∀ x ∈ e.2.allKeys, x ∈ Value.allKeysMembers m := by
  induction m with
  | nil => simp at he
  | cons e2 rest ih =>
    obtain ⟨k2, v2⟩ := e2
    intro x hx
    simp only [Value.allKeysMembers, List.mem_cons, List.mem_append]
    rcases List.mem_cons.1 he with h | h
    · rw [h] at hx; exact Or.inr (Or.inl hx)
    · exact Or.inr (Or.inr (ih h x hx))

theorem compareInterface_flat (p : String) (a b : Value) (l : List diff)
    (hobj : ∀ m, b ≠ .obj m) (harr : ∀ m, b ≠ .arr m)
    (h : CompareInterface p a b = some l) : l = [] ∨ l = [⟨p, a, b⟩] := by
  by_cases ht : TypeOf a = TypeOf b
  · cases a with
    | obj s =>
      cases b <;> simp [TypeOf] at ht
      exact absurd rfl (hobj _)
    | arr s =>
      cases b <;> simp [TypeOf] at ht
      exact absurd rfl (harr _)
    | null =>
      simp only [CompareInterface, ht, ne_eq, not_true_eq_false, if_false] at h
      split at h <;> simp at h <;> simp [h]
    | bool x =>
      simp only [CompareInterface, ht, ne_eq, not_true_eq_false, if_false] at h
      split at h <;> simp at h <;> simp [h]
    | num x =>
      simp only [CompareInterface, ht, ne_eq, not_true_eq_false, if_false] at h
      split at h <;> simp at h <;> simp [h]
    | str x =>
      simp only [CompareInterface, ht, ne_eq, not_true_eq_false, if_false] at h
      split at h <;> simp at h <;> simp [h]
  · right
    cases a <;> cases b <;> simp [TypeOf] at ht <;> simp [CompareInterface, TypeOf] at h <;>
      exact h.symm

theorem flat_paths (p : String) (a b : Value) (l : List diff)
    (h : l = [] ∨ l = [⟨p, a, b⟩]) (e : diff) (he : e ∈ l) :
    ∃ ks, e.Path = p ++ keyPath ks ∧ ∀ k ∈ ks, k ∈ a.allKeys ∨ k ∈ b.allKeys := by
  rcases h with h | h
  · rw [h] at he; simp at he
  · rw [h] at he
    rw [List.mem_singleton.1 he]
    exact ⟨[], by simp [keyPath], by simp⟩

mutual
theorem compareInterface_paths :
    ∀ (b : Value) (p : String) (a : Value) (l : List diff), CompareInterface p a b = some l →
      ∀ e ∈ l, ∃ ks, e.Path = p ++ keyPath ks ∧ ∀ k ∈ ks, k ∈ a.allKeys ∨ k ∈ b.allKeys
  | .obj n, p, a, l, h, e, he => by
      cases a with
      | obj s =>
        obtain ⟨l2, hl2⟩ := compareMapNew_total n p s
        simp only [CompareInterface, TypeOf, ne_eq, not_true_eq_false, if_false, hl2,
          Option.map_some', Option.some.injEq] at h
        subst h
        rcases List.mem_append.1 he with h1 | h1
        · simp only [oldOnly, List.mem_map, List.mem_filter] at h1
          obtain ⟨x, ⟨hx, _⟩, rfl⟩ := h1
          refine ⟨[x.1], by simp [keyPath, String.append_assoc], ?_⟩
          intro k hk
          rw [List.mem_singleton.1 hk]
          exact Or.inl (key_mem_allKeysMembers s x hx)
        · obtain ⟨k, ks, hp, hks⟩ := compareMapNew_paths n p s l2 hl2 e h1
          exact ⟨k :: ks, hp, hks⟩
      | _ =>
        simp [CompareInterface, TypeOf] at h
        subst h
        rw [List.mem_singleton.1 he]
        exact ⟨[], by simp [keyPath], by simp⟩
  | .arr n, p, a, l, h, e, he => by
      cases a with
      | arr s =>
        simp only [CompareInterface, TypeOf, ne_eq, not_true_eq_false, if_false,
          Option.some.injEq] at h
        subst h
        rw [compareArray_eq] at he
        split at he
        · rw [List.mem_singleton.1 he]
          exact ⟨[], by simp [keyPath], by simp⟩
        · simp at he
      | _ =>
        simp [CompareInterface, TypeOf] at h
        subst h
        rw [List.mem_singleton.1 he]
        exact ⟨[], by simp [keyPath], by simp⟩
  | .null, p, a, l, h, e, he =>
      flat_paths p a _ l (compareInterface_flat p a _ l (by simp) (by simp) h) e he
  | .bool _, p, a, l, h, e, he =>
      flat_paths p a _ l (compareInterface_flat p a _ l (by simp) (by simp) h) e he
  | .num _, p, a, l, h, e, he =>
      flat_paths p a _ l (compareInterface_flat p a _ l (by simp) (by simp) h) e he
  | .str _, p, a, l, h, e, he =>
      flat_paths p a _ l (compareInterface_flat p a _ l (by simp) (by simp) h) e he
theorem compareMapNew_paths :
    ∀ (new : List (String × Value)) (p : String) (old : List (String × Value)) (l : List diff),
      CompareMapNew p old new = some l →
      ∀ e ∈ l, ∃ k ks, e.Path = p ++ keyPath (k :: ks)
        ∧ ∀ x ∈ k :: ks, x ∈ Value.allKeysMembers old ∨ x ∈ Value.allKeysMembers new
  | [], p, old, l, h, e, he => by
      simp [CompareMapNew] at h
      subst h
      simp at he
  | (k, v) :: rest, p, old, l, h, e, he => by
      obtain ⟨l2, hl2⟩ := compareMapNew_total rest p old
      obtain ⟨d, hd⟩ := compareInterface_total v (p ++ "." ++ k) (index old k)
      have ih := compareMapNew_paths rest p old l2 hl2
      have ihv := compareInterface_paths v (p ++ "." ++ k) (index old k) d hd
      have hrest : ∀ e ∈ l2, ∃ k2 ks, e.Path = p ++ keyPath (k2 :: ks)
          ∧ ∀ x ∈ k2 :: ks, x ∈ Value.allKeysMembers old
              ∨ x ∈ Value.allKeysMembers ((k, v) :: rest) := by
        intro e he
        obtain ⟨k2, ks, hp, hks⟩ := ih e he
        refine ⟨k2, ks, hp, fun x hx => ?_⟩
        rcases hks x hx with h1 | h1
        · exact Or.inl h1
        · right
          simp only [Value.allKeysMembers, List.mem_cons, List.mem_append]
          exact Or.inr (Or.inr h1)
      have hhead : k ∈ Value.allKeysMembers ((k, v) :: rest) := by
        simp [Value.allKeysMembers]
      by_cases ho : hasKey old k = true
      · simp [CompareMapNew, ho, hl2, hd] at h
        subst h
        rcases List.mem_append.1 he with h1 | h1
        · obtain ⟨ks, hp, hks⟩ := ihv e h1
          refine ⟨k, ks, by rw [hp]; simp [keyPath, String.append_assoc], fun x hx => ?_⟩
          rcases List.mem_cons.1 hx with h2 | h2
          · rw [h2]; exact Or.inr hhead
          · rcases hks x h2 with h3 | h3
            · exact Or.inl (allKeys_index_subset old k x h3)
            · right
              simp only [Value.allKeysMembers, List.mem_cons, List.mem_append]
              exact Or.inr (Or.inl h3)
        · exact hrest e h1
      · simp [CompareMapNew, ho, hl2] at h
        subst h
        rcases List.mem_cons.1 he with h1 | h1
        · refine ⟨k, [], by rw [h1]; simp [keyPath, String.append_assoc], fun x hx => ?_⟩
          simp only [List.mem_singleton] at hx
          rw [hx]; exact Or.inr hhead
        · exact hrest e h1
end

theorem compareMap_paths (p : String) (old new : List (String × Value)) (l : List diff)
    (h : CompareMap p old new = some l) :
    ∀ e ∈ l, ∃ k ks, e.Path = p ++ "." ++ k ++ keyPath ks
      ∧ ∀ x ∈ k :: ks, x ∈ Value.allKeysMembers old ∨ x ∈ Value.allKeysMembers new := by
  obtain ⟨l2, hl2⟩ := compareMapNew_total new p old
  simp only [CompareMap, hl2, Option.map_some', Option.some.injEq] at h
  subst h
  intro e he
  rcases List.mem_append.1 he with h1 | h1
  · simp only [oldOnly, List.mem_map, List.mem_filter] at h1
    obtain ⟨x, ⟨hx, _⟩, rfl⟩ := h1
    refine ⟨x.1, [], by simp [keyPath], fun y hy => ?_⟩
    rw [List.mem_singleton.1 hy]
    exact Or.inl (key_mem_allKeysMembers old x hx)
  · obtain ⟨k, ks, hp, hks⟩ := compareMapNew_paths new p old l2 hl2 e h1
    exact ⟨k, ks, by rw [hp]; simp [keyPath, String.append_assoc], hks⟩

/-- C23 (path invariant): every entry of `CompareMap(p, old, new)` has a path made of `p`,
a dot, an object key and then further dot-prefixed object keys, and every entry of
`CompareInterface(p, a, b)` has a path made of `p` followed by dot-prefixed object keys;
the keys are keys of the compared documents, array positions never appear. -/
theorem C23_path_invariant (p : String) (old new : List (String × Value)) (a b : Value) :
    (∃ l, CompareMap p old new = some l
      ∧ ∀ e ∈ l, ∃ k ks, e.Path = p ++ "." ++ k ++ keyPath ks
          ∧ ∀ x ∈ k :: ks, x ∈ Value.allKeysMembers old ∨ x ∈ Value.allKeysMembers new)
    ∧ (∃ l, CompareInterface p a b = some l
      ∧ ∀ e ∈ l, ∃ ks, e.Path = p ++ keyPath ks ∧ ∀ x ∈ ks, x ∈ a.allKeys ∨ x ∈ b.allKeys) := by
  constructor
  · obtain ⟨l, hl⟩ := compareMap_total p old new
    exact ⟨l, hl, compareMap_paths p old new l hl⟩
  · obtain ⟨l, hl⟩ := compareInterface_total b p a
    exact ⟨l, hl, compareInterface_paths b p a l hl⟩
